import Mathlib

/-!
Verification development for the hppx parameter-pollution sanitizer
(`src/index.ts`).  The engine is shallowly embedded: JavaScript values
become the inductive type `JVal`, plain objects become ordered
association lists (insertion order preserved, as `Object.keys` order),
and the stateful recursive walker `detectAndReduce.processNode` becomes
an explicit state-passing function returning `Except` for its two fatal
error conditions.  JavaScript `undefined` is a first-class `JVal`
constructor because `mergeValues` can produce it (indexing an empty
array) and the cleaned tree can store it.
-/

inductive JVal where
  | null
  | undef
  | bool (b : Bool)
  | num (n : Int)
  | str (s : String)
  | arr (xs : List JVal)
  | obj (kvs : List (String × JVal))

/-- The reserved names guarded everywhere (`DANGEROUS_KEYS` in the source). -/
def DANGEROUS_KEYS : List String := ["__proto__", "prototype", "constructor"]

def isDangerousKey (k : String) : Bool := DANGEROUS_KEYS.contains k

def isPunctChar (c : Char) : Bool := c = '.' || c = '[' || c = ']'

/-- Character membership test (`String.prototype.includes` for a single
character), stated over the underlying character list so that it
evaluates by kernel reduction. -/
def strContains (s : String) (c : Char) : Bool := s.data.contains c

/-- `String.prototype.startsWith`, over the underlying character lists. -/
def strStartsWith (s p : String) : Bool := p.data.isPrefixOf s.data

/-- `Array.prototype.join(".")`. -/
def joinDots : List String → String
  | [] => ""
  | [s] => s
  | s :: rest => s ++ "." ++ joinDots rest

/-- `sanitizeKey` from the source: returns the key unchanged when it is
acceptable, `none` when it must be rejected (dangerous name, null byte,
over-length, or punctuation-only with length > 1). -/
def sanitizeKey (key : String) (maxKeyLength : Nat) : Option String :=
  if isDangerousKey key then none
  else if strContains key (Char.ofNat 0) then none
  else if key.length > maxKeyLength then none
  else if 1 < key.length then
    (if key.data.all isPunctChar then none else some key)
  else some key

/-- Every call site tests the result of `sanitizeKey` with JavaScript
truthiness (`if (!safeKey) continue`), so a returned empty string is
dropped exactly like `null`. -/
def keyKept (key : String) (maxKeyLength : Nat) : Bool :=
  match sanitizeKey key maxKeyLength with
  | none => false
  | some s => s != ""

/-- Split a character list at every `'.'`, keeping empty chunks, as
`String.prototype.split(".")` does. -/
def splitDots : List Char → List (List Char)
  | [] => [[]]
  | c :: cs =>
      match splitDots cs with
      | [] => [[]]
      | s :: ss => if c = '.' then [] :: s :: ss else (c :: s) :: ss

/-- `parsePathSegments`: remove every `']'`, turn every `'['` into `'.'`,
split on `'.'` and drop empty segments (`a[b][c]` becomes `a.b.c` and
then `["a","b","c"]`).  The source's memo cache is a pure performance
device and is omitted. -/
def parsePathSegments (key : String) : List String :=
  let dotted := (key.data.filter (fun c => c != ']')).map (fun c => if c = '[' then '.' else c)
  ((splitDots dotted).filter (fun s => !s.isEmpty)).map (fun cs => String.mk cs)

/-- Own-property lookup on an ordered association list. -/
def getKey (kvs : List (String × JVal)) (k : String) : Option JVal :=
  match kvs with
  | [] => none
  | (k2, v) :: rest => if k2 = k then some v else getKey rest k

/-- JavaScript property assignment: overwrite in place when the key
exists, append otherwise. -/
def setKey (kvs : List (String × JVal)) (k : String) (v : JVal) : List (String × JVal) :=
  match kvs with
  | [] => [(k, v)]
  | (k2, v2) :: rest => if k2 = k then (k2, v) :: rest else (k2, v2) :: setKey rest k v

/-- `setIn` from the source: walk/create plain objects along `path` and
assign the final key, refusing (and aborting, leaving any intermediate
objects already created) as soon as a dangerous segment is met. -/
def setIn (target : List (String × JVal)) (path : List String) (value : JVal) : List (String × JVal) :=
  match path with
  | [] => target
  | [k] => if isDangerousKey k then target else setKey target k value
  | k :: rest =>
      if isDangerousKey k then target
      else
        let child :=
          match getKey target k with
          | some (JVal.obj m) => m
          | _ => []
        setKey target k (JVal.obj (setIn child rest value))

mutual

/-- Value side of `expandObjectPaths`: nested plain objects are expanded
recursively, everything else (arrays included) passes through. -/
def expandValue (maxKeyLength : Nat) : JVal → JVal
  | JVal.obj kvs => JVal.obj (expandEntries maxKeyLength kvs [])
  | v => v
termination_by structural v => v

/-- Key loop of `expandObjectPaths`, threading the result object being
built.  A key containing `'.'` or `'['` whose parse yields at least one
segment is deep-merged with `setIn`; otherwise the key is stored
directly. -/
def expandEntries (maxKeyLength : Nat) :
    List (String × JVal) → List (String × JVal) → List (String × JVal)
  | [], result => result
  | (rawKey, value) :: rest, result =>
      if keyKept rawKey maxKeyLength then
        let ev := expandValue maxKeyLength value
        let segments := parsePathSegments rawKey
        let result2 :=
          if (strContains rawKey '.' || strContains rawKey '[') && !segments.isEmpty then
            setIn result segments ev
          else setKey result rawKey ev
        expandEntries maxKeyLength rest result2
      else expandEntries maxKeyLength rest result
termination_by structural kvs _ => kvs

end

def expandObjectPaths (maxKeyLength : Nat) (kvs : List (String × JVal)) :
    List (String × JVal) :=
  expandEntries maxKeyLength kvs []

mutual

/-- `safeDeepClone`: arrays are truncated to `maxArrayLength` and cloned
elementwise; plain objects keep only keys accepted by the guard;
scalars are returned unchanged. -/
def safeDeepClone (maxKeyLength maxArrayLength : Nat) : JVal → JVal
  | JVal.arr xs => JVal.arr (cloneElems maxKeyLength maxArrayLength maxArrayLength xs)
  | JVal.obj kvs => JVal.obj (cloneEntries maxKeyLength maxArrayLength kvs [])
  | v => v
termination_by structural v => v

/-- Clone at most `budget` array elements (`input.slice(0, limit).map`). -/
def cloneElems (maxKeyLength maxArrayLength : Nat) : Nat → List JVal → List JVal
  | _, [] => []
  | 0, _ :: _ => []
  | b + 1, x :: xs =>
      safeDeepClone maxKeyLength maxArrayLength x ::
        cloneElems maxKeyLength maxArrayLength b xs
termination_by structural _ xs => xs

/-- Object branch of `safeDeepClone` (`out[k] = ...` over accepted keys). -/
def cloneEntries (maxKeyLength maxArrayLength : Nat) :
    List (String × JVal) → List (String × JVal) → List (String × JVal)
  | [], out => out
  | (k, v) :: rest, out =>
      if keyKept k maxKeyLength then
        cloneEntries maxKeyLength maxArrayLength rest
          (setKey out k (safeDeepClone maxKeyLength maxArrayLength v))
      else cloneEntries maxKeyLength maxArrayLength rest out
termination_by structural kvs _ => kvs

end

/-- One step of the `combine` reduction (`acc.push(...v)` for arrays,
`acc.push(v)` otherwise). -/
def combinePush (acc : List JVal) (v : JVal) : List JVal :=
  match v with
  | JVal.arr xs => acc ++ xs
  | _ => acc ++ [v]

/-- `mergeValues`: `keepFirst` is `values[0]`, `keepLast` (and every
unrecognized strategy, the `default` arm) is `values[values.length - 1]`,
`combine` is the one-level concatenation.  Indexing an empty list yields
JavaScript `undefined`. -/
def mergeValues (values : List JVal) (strategy : String) : JVal :=
  if strategy = "keepFirst" then values.headD JVal.undef
  else if strategy = "keepLast" then values.getLastD JVal.undef
  else if strategy = "combine" then JVal.arr (values.foldl combinePush [])
  else values.getLastD JVal.undef

/-- `buildWhitelistHelpers(...).isWhitelistedPath`: exact match on the
dot-joined path, then leaf match on the final segment, then prefix match
against every non-empty whitelist entry.  The memo cache is omitted. -/
def isWhitelistedPath (whitelist : List String) (pathParts : List String) : Bool :=
  match pathParts with
  | [] => false
  | _ :: _ =>
      let full := joinDots pathParts
      if whitelist.contains full then true
      else if whitelist.contains (pathParts.getLastD "") then true
      else
        (whitelist.filter (fun w => !w.isEmpty)).any
          (fun p => full == p || strStartsWith full (p ++ "."))

/-- Re-split a path segment that still carries literal dots
(`seg.includes(".") ? seg.split(".") : [seg]`). -/
def normalizeSeg (seg : String) : List String :=
  if strContains seg '.' then (splitDots seg.data).map (fun cs => String.mk cs)
  else [seg]

mutual

/-- Walk of `moveWhitelistedFromPolluted` over the polluted tree.
Returns the pruned polluted entries together with the ordered list of
restore actions (normalized path, value) performed on the request part. -/
def mwWalk (isW : List String → Bool) :
    List (String × JVal) → List String →
      List (String × JVal) × List (List String × JVal)
  | [], _ => ([], [])
  | (k, v) :: rest, path =>
      let r1 := mwEntry isW k v (path ++ [k])
      let r2 := mwWalk isW rest path
      (match r1.1 with
       | none => r2.1
       | some e => e :: r2.1,
       r1.2 ++ r2.2)
termination_by structural kvs _ => kvs

/-- One entry of the walk: recurse into plain objects (dropping them
when they become empty), move whitelisted leaves out as restore
actions, keep everything else. -/
def mwEntry (isW : List String → Bool) (k : String) :
    JVal → List String → Option (String × JVal) × List (List String × JVal)
  | JVal.obj m, curPath =>
      let r := mwWalk isW m curPath
      if r.1.isEmpty then (none, r.2) else (some (k, JVal.obj r.1), r.2)
  | v, curPath =>
      if isW curPath then (none, [((curPath.map normalizeSeg).flatten, v)])
      else (some (k, v), [])
termination_by structural v _ => v

end

/-- Replay the restore actions onto the request part
(`setIn(reqPart, normalizedPath, v)` in walk order). -/
def applyRestores (reqPart : JVal) (acts : List (List String × JVal)) : JVal :=
  acts.foldl
    (fun c act =>
      match c with
      | JVal.obj m => JVal.obj (setIn m act.1 act.2)
      | other => other)
    reqPart

/-- `moveWhitelistedFromPolluted`: returns the request part after the
whitelisted values were written back, and the pruned polluted tree. -/
def moveWhitelistedFromPolluted (isW : List String → Bool) (reqPart : JVal)
    (polluted : List (String × JVal)) : JVal × List (String × JVal) :=
  let r := mwWalk isW polluted []
  (applyRestores reqPart r.2, r.1)

structure SanitizeOptions where
  whitelist : List String
  mergeStrategy : String
  maxDepth : Nat
  maxKeys : Nat
  maxArrayLength : Nat
  maxKeyLength : Nat
  trimValues : Bool
  preserveNull : Bool

/-- The defaults applied by `sanitize` / the middleware. -/
def defaultOptions : SanitizeOptions :=
  { whitelist := []
    mergeStrategy := "keepLast"
    maxDepth := 20
    maxKeys := 5000
    maxArrayLength := 1000
    maxKeyLength := 200
    trimValues := false
    preserveNull := true }

/-- The two fatal conditions thrown by `detectAndReduce.processNode`. -/
inductive SanErr where
  | depthExceeded
  | keyCountExceeded
deriving DecidableEq, Repr

/-- Call-scoped mutable state of `detectAndReduce`. -/
structure SanState where
  keyCount : Nat
  polluted : List (String × JVal)
  pollutedKeys : List String

structure SanitizedResult where
  cleaned : JVal
  pollutedTree : List (String × JVal)
  pollutedKeys : List String

/-- Post-merge trimming of string results
(`if (typeof value === "string" && opts.trimValues) value = value.trim()`). -/
def trimValue (trimValues : Bool) (v : JVal) : JVal :=
  match v with
  | JVal.str s => if trimValues then JVal.str s.trim else JVal.str s
  | other => other

mutual

/-- `detectAndReduce.processNode`.  Null and undefined pass through (the
`preserveNull` ternary has identical arms in the source); arrays are
truncated, recursed with the same path and depth, then either combined
(no pollution recorded) or recorded into the polluted state and reduced;
plain objects check the depth bound, count and guard each key, and
recurse one level deeper; scalars pass through. -/
def processNode (o : SanitizeOptions) :
    JVal → List String → Nat → SanState → Except SanErr (JVal × SanState)
  | JVal.null, _, _, st => Except.ok (if o.preserveNull then JVal.null else JVal.null, st)
  | JVal.undef, _, _, st => Except.ok (if o.preserveNull then JVal.undef else JVal.undef, st)
  | JVal.arr xs, path, depth, st =>
      match processElems o o.maxArrayLength xs path depth st with
      | Except.error e => Except.error e
      | Except.ok (mapped, st1) =>
          if o.mergeStrategy = "combine" then
            Except.ok (mergeValues mapped "combine", st1)
          else
            let origClone := safeDeepClone o.maxKeyLength o.maxArrayLength (JVal.arr xs)
            let st2 : SanState :=
              { keyCount := st1.keyCount
                polluted := setIn st1.polluted path origClone
                pollutedKeys := st1.pollutedKeys ++ [joinDots path] }
            Except.ok (mergeValues mapped o.mergeStrategy, st2)
  | JVal.obj kvs, path, depth, st =>
      if depth > o.maxDepth then Except.error SanErr.depthExceeded
      else
        match processEntries o kvs path depth st [] with
        | Except.error e => Except.error e
        | Except.ok (out, st1) => Except.ok (JVal.obj out, st1)
  | JVal.bool b, _, _, st => Except.ok (JVal.bool b, st)
  | JVal.num n, _, _, st => Except.ok (JVal.num n, st)
  | JVal.str s, _, _, st => Except.ok (JVal.str s, st)
termination_by structural v _ _ _ => v

/-- Element loop of the array branch (`node.slice(0, limit).map(...)`),
with the slice expressed as a recursion budget. -/
def processElems (o : SanitizeOptions) :
    Nat → List JVal → List String → Nat → SanState →
      Except SanErr (List JVal × SanState)
  | _, [], _, _, st => Except.ok ([], st)
  | 0, _ :: _, _, _, st => Except.ok ([], st)
  | b + 1, x :: xs, path, depth, st =>
      match processNode o x path depth st with
      | Except.error e => Except.error e
      | Except.ok (v, st1) =>
          match processElems o b xs path depth st1 with
          | Except.error e => Except.error e
          | Except.ok (vs, st2) => Except.ok (v :: vs, st2)
termination_by structural _ xs _ _ _ => xs

/-- Key loop of the object branch: every own key increments the counter
before the guard runs; guarded-out keys are skipped silently; kept keys
are processed one level deeper and stored (with optional trimming of
string results). -/
def processEntries (o : SanitizeOptions) :
    List (String × JVal) → List String → Nat → SanState → List (String × JVal) →
      Except SanErr (List (String × JVal) × SanState)
  | [], _, _, st, out => Except.ok (out, st)
  | (rawKey, child) :: rest, path, depth, st, out =>
      let st1 : SanState :=
        { keyCount := st.keyCount + 1, polluted := st.polluted
          pollutedKeys := st.pollutedKeys }
      if st1.keyCount > o.maxKeys then Except.error SanErr.keyCountExceeded
      else if keyKept rawKey o.maxKeyLength then
        match processNode o child (path ++ [rawKey]) (depth + 1) st1 with
        | Except.error e => Except.error e
        | Except.ok (value, st2) =>
            processEntries o rest path depth st2 (setKey out rawKey (trimValue o.trimValues value))
      else processEntries o rest path depth st1 out
termination_by structural kvs _ _ _ _ => kvs

end

/-- `detectAndReduce`: deep-clone the (already expanded) input, then run
the walker from the empty path at depth 0 with fresh state. -/
def detectAndReduce (o : SanitizeOptions) (input : List (String × JVal)) :
    Except SanErr SanitizedResult :=
  let cloned := safeDeepClone o.maxKeyLength o.maxArrayLength (JVal.obj input)
  match processNode o cloned [] 0 { keyCount := 0, polluted := [], pollutedKeys := [] } with
  | Except.error e => Except.error e
  | Except.ok (cleaned, st) =>
      Except.ok { cleaned := cleaned, pollutedTree := st.polluted, pollutedKeys := st.pollutedKeys }

/-- The expand → detect/reduce → restore pipeline, keeping the full
`{cleaned, pollutedTree, pollutedKeys}` triple exactly as the
middleware observes it (`pollutedKeys` is not edited by restoration). -/
def sanitizePipeline (input : List (String × JVal)) (options : SanitizeOptions) :
    Except SanErr SanitizedResult :=
  let expanded := expandObjectPaths options.maxKeyLength input
  match detectAndReduce options expanded with
  | Except.error e => Except.error e
  | Except.ok r =>
      let moved := moveWhitelistedFromPolluted (isWhitelistedPath options.whitelist)
        r.cleaned r.pollutedTree
      Except.ok { cleaned := moved.1, pollutedTree := moved.2, pollutedKeys := r.pollutedKeys }

/-- The exported `sanitize` entry point: same pipeline, returning only
the cleaned tree. -/
def sanitize (input : List (String × JVal)) (options : SanitizeOptions) :
    Except SanErr JVal :=
  match sanitizePipeline input options with
  | Except.error e => Except.error e
  | Except.ok r => Except.ok r.cleaned

/-- Scenario-1 smoke check: under the default `keepLast` strategy a
duplicated parameter collapses to its last value. -/
lemma sanitize_keepLast_smoke :
    sanitize [("firstname", JVal.arr [JVal.str "John", JVal.str "Alice"])] defaultOptions
      = Except.ok (JVal.obj [("firstname", JVal.str "Alice")]) := rfl

/-! ## Derived notions used by the theorems -/

/-- Elements contributed by one value under the `combine` strategy: an
array contributes its elements, anything else contributes itself. -/
def combineElems (v : JVal) : List JVal :=
  match v with
  | JVal.arr xs => xs
  | _ => [v]

lemma foldl_combinePush (V : List JVal) (acc : List JVal) :
    V.foldl combinePush acc = acc ++ V.flatMap combineElems := by
  induction V generalizing acc with
  | nil => simp
  | cons v rest ih =>
      cases v <;> simp [List.foldl, ih, combinePush, combineElems]

/-! ## C4 -/

/-- C4: for every non-empty value list `V`, `mergeValues` returns `V[0]`
under `keepFirst`, the last element under `keepLast`, the one-level
concatenation under `combine`, and behaves like `keepLast` (without
raising) for every unrecognized strategy string. -/
theorem C4_mergeValues_totality (V : List JVal) (h : V ≠ []) :
    mergeValues V "keepFirst" = V.head h ∧
    mergeValues V "keepLast" = V.getLast h ∧
    mergeValues V "combine" = JVal.arr (V.flatMap combineElems) ∧
    ∀ s : String, s ≠ "keepFirst" → s ≠ "keepLast" → s ≠ "combine" →
      mergeValues V s = mergeValues V "keepLast" := by
  refine ⟨?_, ?_, ?_, ?_⟩
  · cases V with
    | nil => exact absurd rfl h
    | cons a t => rfl
  · have e : mergeValues V "keepLast" = V.getLastD JVal.undef := rfl
    rw [e, List.getLastD_eq_getLast?, List.getLast?_eq_getLast V h]
    rfl
  · simp [mergeValues, foldl_combinePush]
  · intro s h1 h2 h3
    simp [mergeValues, h1, h2, h3]

/-- Witness for C4 at the concrete list `[1, 2]`. -/
theorem C4_witness :
    (([JVal.num 1, JVal.num 2] : List JVal) ≠ []) ∧
    mergeValues [JVal.num 1, JVal.num 2] "keepFirst" = JVal.num 1 := by
  have h : ([JVal.num 1, JVal.num 2] : List JVal) ≠ [] := by simp
  exact ⟨h, (C4_mergeValues_totality [JVal.num 1, JVal.num 2] h).1⟩

/-! ## C7 -/

/-- C7: path expansion turns bracket groups into dot segments
(`a[b][c]` parses to `["a","b","c"]`); a kept key containing `.` or `[`
with a non-empty parse is deep-merged at its segment path via `setIn`;
and the spec's concrete scenario (flattened `user.tags` / `user.name`
keys with whitelist `["user.tags"]`) produces exactly the claimed
cleaned tree and polluted tree. -/
theorem C7_path_expansion :
    parsePathSegments "a[b][c]" = ["a", "b", "c"] ∧
    (∀ (maxLen : Nat) (k : String) (v : JVal) (result : List (String × JVal)),
      keyKept k maxLen = true →
      (strContains k '.' || strContains k '[') = true →
      parsePathSegments k ≠ [] →
      expandEntries maxLen [(k, v)] result
        = setIn result (parsePathSegments k) (expandValue maxLen v)) ∧
    sanitizePipeline
        [("user.tags", JVal.arr [JVal.str "1", JVal.str "2"]),
         ("user.name", JVal.arr [JVal.str "Ann", JVal.str "Bob"])]
        { defaultOptions with whitelist := ["user.tags"] }
      = Except.ok
          { cleaned := JVal.obj [("user",
              JVal.obj [("tags", JVal.arr [JVal.str "1", JVal.str "2"]),
                        ("name", JVal.str "Bob")])],
            pollutedTree := [("user",
              JVal.obj [("name", JVal.arr [JVal.str "Ann", JVal.str "Bob"])])],
            pollutedKeys := ["user.tags", "user.name"] } := by
  refine ⟨rfl, ?_, rfl⟩
  intro maxLen k v result h1 h2 h3
  have h4 : (parsePathSegments k).isEmpty = false := by
    cases hp : parsePathSegments k with
    | nil => exact absurd hp h3
    | cons a t => rfl
  simp [expandEntries, h1, h2, h4]

/-- Witness for C7's universal part at the key `"user.tags"`. -/
theorem C7_witness :
    keyKept "user.tags" 200 = true ∧
    parsePathSegments "user.tags" = ["user", "tags"] ∧
    expandEntries 200 [("user.tags", JVal.num 1)] []
      = setIn [] (parsePathSegments "user.tags") (expandValue 200 (JVal.num 1)) := by
  refine ⟨rfl, rfl, ?_⟩
  exact C7_path_expansion.2.1 200 "user.tags" (JVal.num 1) [] rfl rfl (by decide)

/-! ## C10 -/

/-- C10: an empty array node reduces to `undefined` under `keepFirst`
or `keepLast` while its path is still recorded as pollution (the empty
array is stored in the polluted tree and the dot-path appended to
`pollutedKeys`); under `combine` it reduces to the empty array and no
pollution is recorded.  The concrete pipeline instances show the cleaned
tree mapping the key to `undefined` (resp. `[]`). -/
theorem C10_empty_array :
    (∀ (o : SanitizeOptions) (path : List String) (depth : Nat) (st : SanState),
      o.mergeStrategy = "keepFirst" ∨ o.mergeStrategy = "keepLast" →
      processNode o (JVal.arr []) path depth st
        = Except.ok (JVal.undef,
            { keyCount := st.keyCount
              polluted := setIn st.polluted path (JVal.arr [])
              pollutedKeys := st.pollutedKeys ++ [joinDots path] })) ∧
    (∀ (o : SanitizeOptions) (path : List String) (depth : Nat) (st : SanState),
      o.mergeStrategy = "combine" →
      processNode o (JVal.arr []) path depth st = Except.ok (JVal.arr [], st)) ∧
    sanitizePipeline [("x", JVal.arr [])] defaultOptions
      = Except.ok { cleaned := JVal.obj [("x", JVal.undef)],
                    pollutedTree := [("x", JVal.arr [])], pollutedKeys := ["x"] } ∧
    sanitizePipeline [("x", JVal.arr [])] { defaultOptions with mergeStrategy := "combine" }
      = Except.ok { cleaned := JVal.obj [("x", JVal.arr [])],
                    pollutedTree := [], pollutedKeys := [] } := by
  refine ⟨?_, ?_, rfl, rfl⟩
  · intro o path depth st h
    rcases h with h | h <;>
      simp [processNode, processElems, h, mergeValues, safeDeepClone, cloneElems]
  · intro o path depth st h
    simp [processNode, processElems, h, mergeValues]

/-- Witness for C10 at a concrete strategy, path and state. -/
theorem C10_witness :
    (defaultOptions.mergeStrategy = "keepFirst" ∨ defaultOptions.mergeStrategy = "keepLast") ∧
    processNode defaultOptions (JVal.arr []) ["x"] 1
        { keyCount := 3, polluted := [], pollutedKeys := [] }
      = Except.ok (JVal.undef,
          { keyCount := 3, polluted := [("x", JVal.arr [])], pollutedKeys := ["x"] }) := by
  have h : defaultOptions.mergeStrategy = "keepFirst" ∨ defaultOptions.mergeStrategy = "keepLast" :=
    Or.inr rfl
  refine ⟨h, ?_⟩
  have := C10_empty_array.1 defaultOptions ["x"] 1
    { keyCount := 3, polluted := [], pollutedKeys := [] } h
  simpa [setIn, setKey, joinDots] using this

/-! ## Counterexamples for the corrected claims -/

/-- C1 as stated is false: this input contains `__proto__` as a key,
yet `sanitize` does not complete without error (the sibling subtree
exceeds `maxDepth`, and dropped keys still count toward the traversal
bounds). -/
theorem C1_counterexample :
    isDangerousKey "__proto__" = true ∧
    sanitize [("__proto__", JVal.num 0),
              ("a", JVal.obj [("b", JVal.obj [("c", JVal.num 0)])])]
        { defaultOptions with maxDepth := 1 }
      = Except.error SanErr.depthExceeded := ⟨rfl, rfl⟩

/-- C2 as stated is false: with `maxArrayLength := 1` the whitelisted
path `x` ends up holding the truncated clone `[1]`, not the original
array `[1, 2]` unchanged. -/
theorem C2_counterexample :
    sanitize [("x", JVal.arr [JVal.num 1, JVal.num 2])]
        { defaultOptions with whitelist := ["x"], maxArrayLength := 1 }
      = Except.ok (JVal.obj [("x", JVal.arr [JVal.num 1])]) ∧
    JVal.arr [JVal.num 1] ≠ JVal.arr [JVal.num 1, JVal.num 2] := by
  refine ⟨rfl, ?_⟩
  simp

/-- C3 as stated is false: a single-element array (length 1, so no path
"whose array length > 1 was collapsed" exists) is still recorded, so
`pollutedKeys` has length 1 where the claim demands length 0. -/
theorem C3_counterexample :
    sanitizePipeline [("a", JVal.arr [JVal.str "x"])] defaultOptions
      = Except.ok { cleaned := JVal.obj [("a", JVal.str "x")],
                    pollutedTree := [("a", JVal.arr [JVal.str "x"])],
                    pollutedKeys := ["a"] } ∧
    [JVal.str "x"].length = 1 ∧ (["a"] : List String).length ≠ 0 := by
  exact ⟨rfl, rfl, by simp⟩

/-- C8 as stated is false: `"a.b"` is not a malformed key (the guard
accepts it), it names no duplicate, yet `sanitize` rewrites the tree by
path expansion, so the result differs from the input by more than
malformed-key removal. -/
theorem C8_counterexample :
    sanitize [("a.b", JVal.num 1)] defaultOptions
      = Except.ok (JVal.obj [("a", JVal.obj [("b", JVal.num 1)])]) ∧
    sanitizeKey "a.b" 200 = some "a.b" ∧
    JVal.obj [("a", JVal.obj [("b", JVal.num 1)])] ≠ JVal.obj [("a.b", JVal.num 1)] := by
  refine ⟨rfl, rfl, ?_⟩
  simp

/-! ## Dangerous-key freedom -/

mutual

/-- No own enumerable property at any level is named `__proto__`,
`prototype` or `constructor`. -/
def noDangVal : JVal → Bool
  | JVal.arr xs => noDangList xs
  | JVal.obj kvs => noDangEntries kvs
  | _ => true
termination_by structural v => v

def noDangList : List JVal → Bool
  | [] => true
  | x :: xs => noDangVal x && noDangList xs
termination_by structural xs => xs

def noDangEntries : List (String × JVal) → Bool
  | [] => true
  | (k, v) :: rest => !isDangerousKey k && noDangVal v && noDangEntries rest
termination_by structural kvs => kvs

end

lemma keyKept_not_dangerous {k : String} {n : Nat} (h : keyKept k n = true) :
    isDangerousKey k = false := by
  by_contra hd
  have hd2 : isDangerousKey k = true := by
    cases hb : isDangerousKey k
    · exact absurd hb hd
    · rfl
  simp [keyKept, sanitizeKey, hd2] at h

lemma noDangList_append {a b : List JVal} (ha : noDangList a = true)
    (hb : noDangList b = true) : noDangList (a ++ b) = true := by
  induction a with
  | nil => simpa using hb
  | cons x xs ih =>
      simp [noDangList] at ha ⊢
      exact ⟨ha.1, ih ha.2⟩

lemma noDangList_mem {xs : List JVal} {v : JVal} (h : noDangList xs = true)
    (hv : v ∈ xs) : noDangVal v = true := by
  induction xs with
  | nil => cases hv
  | cons x rest ih =>
      simp [noDangList] at h
      rcases List.mem_cons.mp hv with rfl | hv2
      · exact h.1
      · exact ih h.2 hv2

lemma noDang_getKey {m : List (String × JVal)} {k : String} {v : JVal}
    (hm : noDangEntries m = true) (h : getKey m k = some v) : noDangVal v = true := by
  induction m with
  | nil => simp [getKey] at h
  | cons p rest ih =>
      obtain ⟨k2, v2⟩ := p
      simp only [noDangEntries, Bool.and_eq_true, Bool.not_eq_true'] at hm
      obtain ⟨⟨hk2, hv2⟩, hrest⟩ := hm
      by_cases he : k2 = k
      · simp [getKey, he] at h
        subst h
        exact hv2
      · simp [getKey, he] at h
        exact ih hrest h

lemma noDang_setKey {m : List (String × JVal)} {k : String} {v : JVal}
    (hm : noDangEntries m = true) (hk : isDangerousKey k = false)
    (hv : noDangVal v = true) : noDangEntries (setKey m k v) = true := by
  induction m with
  | nil => simp [setKey, noDangEntries, hk, hv]
  | cons p rest ih =>
      obtain ⟨k2, v2⟩ := p
      simp only [noDangEntries, Bool.and_eq_true, Bool.not_eq_true'] at hm
      obtain ⟨⟨hk2, hv2⟩, hrest⟩ := hm
      by_cases he : k2 = k
      · simp [setKey, he, noDangEntries, hk2, hv, hrest, he ▸ hk2]
      · simp [setKey, he, noDangEntries, hk2, hv2]
        exact ih hrest

lemma noDang_setIn {m : List (String × JVal)} {path : List String} {v : JVal}
    (hm : noDangEntries m = true) (hv : noDangVal v = true) :
    noDangEntries (setIn m path v) = true := by
  induction path generalizing m with
  | nil => simpa [setIn] using hm
  | cons k rest ih =>
      cases rest with
      | nil =>
          by_cases hk : isDangerousKey k
          · simpa [setIn, hk] using hm
          · have hk2 : isDangerousKey k = false := by simpa using hk
            simpa [setIn, hk2] using noDang_setKey hm hk2 hv
      | cons k2 rest2 =>
          by_cases hk : isDangerousKey k
          · simpa [setIn, hk] using hm
          · have hk2 : isDangerousKey k = false := by simpa using hk
            have hchild : noDangEntries
                (match getKey m k with
                 | some (JVal.obj m2) => m2
                 | _ => []) = true := by
              cases hg : getKey m k with
              | none => simp [noDangEntries]
              | some w =>
                  cases w <;> simp [noDangEntries]
                  case obj m2 =>
                    have := noDang_getKey hm hg
                    simpa [noDangVal] using this
            have hrec := ih hchild
            simp only [setIn, hk2]
            simp only [Bool.false_eq_true, if_false]
            exact noDang_setKey hm hk2 (by simpa [noDangVal] using hrec)

lemma noDang_getLastD {xs : List JVal} {d : JVal} (hxs : noDangList xs = true)
    (hd : noDangVal d = true) : noDangVal (xs.getLastD d) = true := by
  induction xs generalizing d with
  | nil => simpa using hd
  | cons x rest ih =>
      simp only [noDangList, Bool.and_eq_true] at hxs
      rw [List.getLastD_cons]
      exact ih hxs.2 hxs.1

lemma noDang_mergeValues {vs : List JVal} {s : String} (h : noDangList vs = true) :
    noDangVal (mergeValues vs s) = true := by
  unfold mergeValues
  by_cases h1 : s = "keepFirst"
  · simp only [h1, if_pos rfl]
    cases vs with
    | nil => simp [List.headD, noDangVal]
    | cons a t =>
        simp [noDangList] at h
        simpa [List.headD] using h.1
  · by_cases h2 : s = "keepLast"
    · simp only [h1, if_false, h2, if_pos rfl]
      exact noDang_getLastD h (by simp [noDangVal])
    · by_cases h3 : s = "combine"
      · simp only [h1, if_false, h2, h3, if_pos rfl]
        rw [foldl_combinePush]
        simp only [noDangVal, List.nil_append]
        induction vs with
        | nil => simp [noDangList]
        | cons x rest ih =>
            simp [noDangList] at h
            simp only [List.flatMap_cons]
            apply noDangList_append
            · cases x <;> simp [combineElems, noDangList, noDangVal] <;>
                simpa [noDangVal] using h.1
            · exact ih h.2
      · simp only [h1, if_false, h2, h3]
        exact noDang_getLastD h (by simp [noDangVal])

mutual

lemma noDang_clone (a b : Nat) : ∀ v : JVal, noDangVal (safeDeepClone a b v) = true
  | JVal.null => by simp [safeDeepClone, noDangVal]
  | JVal.undef => by simp [safeDeepClone, noDangVal]
  | JVal.bool x => by simp [safeDeepClone, noDangVal]
  | JVal.num n => by simp [safeDeepClone, noDangVal]
  | JVal.str s => by simp [safeDeepClone, noDangVal]
  | JVal.arr xs => by
      simpa [safeDeepClone, noDangVal] using noDang_cloneElems a b b xs
  | JVal.obj kvs => by
      simpa [safeDeepClone, noDangVal] using
        noDang_cloneEntries a b kvs [] (by simp [noDangEntries])

lemma noDang_cloneElems (a b : Nat) : ∀ (budget : Nat) (xs : List JVal),
    noDangList (cloneElems a b budget xs) = true
  | _, [] => by simp [cloneElems, noDangList]
  | 0, _ :: _ => by simp [cloneElems, noDangList]
  | budget + 1, x :: xs => by
      simp only [cloneElems, noDangList]
      simp [noDang_clone a b x, noDang_cloneElems a b budget xs]

lemma noDang_cloneEntries (a b : Nat) : ∀ (kvs out : List (String × JVal)),
    noDangEntries out = true → noDangEntries (cloneEntries a b kvs out) = true
  | [], out, h => by simpa [cloneEntries] using h
  | (k, v) :: rest, out, h => by
      by_cases hk : keyKept k a
      · have hset := noDang_setKey h (keyKept_not_dangerous hk) (noDang_clone a b v)
        simpa [cloneEntries, hk] using noDang_cloneEntries a b rest _ hset
      · have hk2 : keyKept k a = false := by simpa using hk
        simpa [cloneEntries, hk2] using noDang_cloneEntries a b rest out h

end

/-! ## Static characterizations of the traversal -/

mutual

/-- Spec-level collection of the dot-paths recorded as pollution under a
non-`combine` strategy: one entry per array node visited, its elements
first (at the same path), restricted to kept keys and to the truncated
element prefix. -/
def arrayPathsVal (maxLen maxArr : Nat) : JVal → List String → List String
  | JVal.arr xs, path => arrayPathsElems maxLen maxArr maxArr xs path ++ [joinDots path]
  | JVal.obj kvs, path => arrayPathsEntries maxLen maxArr kvs path
  | _, _ => []
termination_by structural v _ => v

def arrayPathsElems (maxLen maxArr : Nat) : Nat → List JVal → List String → List String
  | _, [], _ => []
  | 0, _ :: _, _ => []
  | b + 1, x :: xs, path =>
      arrayPathsVal maxLen maxArr x path ++ arrayPathsElems maxLen maxArr b xs path
termination_by structural _ xs _ => xs

def arrayPathsEntries (maxLen maxArr : Nat) : List (String × JVal) → List String → List String
  | [], _ => []
  | (k, v) :: rest, path =>
      (if keyKept k maxLen then arrayPathsVal maxLen maxArr v (path ++ [k]) else [])
        ++ arrayPathsEntries maxLen maxArr rest path
termination_by structural kvs _ => kvs

end

mutual

/-- Number of object keys the traversal counts: every own key of every
processed object (dropped keys included), subtrees of dropped keys and
truncated array tails excluded. -/
def countKeysVal (maxLen maxArr : Nat) : JVal → Nat
  | JVal.arr xs => countKeysElems maxLen maxArr maxArr xs
  | JVal.obj kvs => countKeysEntries maxLen maxArr kvs
  | _ => 0
termination_by structural v => v

def countKeysElems (maxLen maxArr : Nat) : Nat → List JVal → Nat
  | _, [] => 0
  | 0, _ :: _ => 0
  | b + 1, x :: xs => countKeysVal maxLen maxArr x + countKeysElems maxLen maxArr b xs
termination_by structural _ xs => xs

def countKeysEntries (maxLen maxArr : Nat) : List (String × JVal) → Nat
  | [] => 0
  | (k, v) :: rest =>
      1 + (if keyKept k maxLen then countKeysVal maxLen maxArr v else 0)
        + countKeysEntries maxLen maxArr rest
termination_by structural kvs => kvs

end

mutual

/-- Whether the traversal meets a plain object strictly deeper than
`maxDepth` (arrays do not advance the depth; dropped keys and truncated
array tails are never visited). -/
def hasDeepVal (maxLen maxArr maxDepth : Nat) : JVal → Nat → Bool
  | JVal.obj kvs, depth =>
      decide (depth > maxDepth) || hasDeepEntries maxLen maxArr maxDepth kvs depth
  | JVal.arr xs, depth => hasDeepElems maxLen maxArr maxDepth maxArr xs depth
  | _, _ => false
termination_by structural v _ => v

def hasDeepElems (maxLen maxArr maxDepth : Nat) : Nat → List JVal → Nat → Bool
  | _, [], _ => false
  | 0, _ :: _, _ => false
  | b + 1, x :: xs, depth =>
      hasDeepVal maxLen maxArr maxDepth x depth
        || hasDeepElems maxLen maxArr maxDepth b xs depth
termination_by structural _ xs _ => xs

def hasDeepEntries (maxLen maxArr maxDepth : Nat) : List (String × JVal) → Nat → Bool
  | [], _ => false
  | (k, v) :: rest, depth =>
      (keyKept k maxLen && hasDeepVal maxLen maxArr maxDepth v (depth + 1))
        || hasDeepEntries maxLen maxArr maxDepth rest depth
termination_by structural kvs _ => kvs

end

/-- All facts established by a successful `processNode` run: no deep
object was met, the key counter advanced by the static count and stayed
within `maxKeys`, `pollutedKeys` grew by exactly the static path list
(empty under `combine`), the polluted tree is untouched under `combine`,
the result value is free of dangerous keys, and freedom of dangerous
keys in the polluted tree is preserved. -/
abbrev nodeFacts (o : SanitizeOptions) (v : JVal) (path : List String)
    (depth : Nat) (st : SanState) : Prop :=
  ∀ v' st', processNode o v path depth st = Except.ok (v', st') →
    hasDeepVal o.maxKeyLength o.maxArrayLength o.maxDepth v depth = false
    ∧ st'.keyCount = st.keyCount + countKeysVal o.maxKeyLength o.maxArrayLength v
    ∧ (st.keyCount ≤ o.maxKeys → st'.keyCount ≤ o.maxKeys)
    ∧ st'.pollutedKeys = st.pollutedKeys ++
        (if o.mergeStrategy = "combine" then []
         else arrayPathsVal o.maxKeyLength o.maxArrayLength v path)
    ∧ (o.mergeStrategy = "combine" → st'.polluted = st.polluted)
    ∧ noDangVal v' = true
    ∧ (noDangEntries st.polluted = true → noDangEntries st'.polluted = true)

abbrev elemsFacts (o : SanitizeOptions) (b : Nat) (xs : List JVal)
    (path : List String) (depth : Nat) (st : SanState) : Prop :=
  ∀ vs st', processElems o b xs path depth st = Except.ok (vs, st') →
    hasDeepElems o.maxKeyLength o.maxArrayLength o.maxDepth b xs depth = false
    ∧ st'.keyCount = st.keyCount + countKeysElems o.maxKeyLength o.maxArrayLength b xs
    ∧ (st.keyCount ≤ o.maxKeys → st'.keyCount ≤ o.maxKeys)
    ∧ st'.pollutedKeys = st.pollutedKeys ++
        (if o.mergeStrategy = "combine" then []
         else arrayPathsElems o.maxKeyLength o.maxArrayLength b xs path)
    ∧ (o.mergeStrategy = "combine" → st'.polluted = st.polluted)
    ∧ noDangList vs = true
    ∧ (noDangEntries st.polluted = true → noDangEntries st'.polluted = true)

abbrev entriesFacts (o : SanitizeOptions) (kvs : List (String × JVal))
    (path : List String) (depth : Nat) (st : SanState)
    (out : List (String × JVal)) : Prop :=
  ∀ out' st', processEntries o kvs path depth st out = Except.ok (out', st') →
    hasDeepEntries o.maxKeyLength o.maxArrayLength o.maxDepth kvs depth = false
    ∧ st'.keyCount = st.keyCount + countKeysEntries o.maxKeyLength o.maxArrayLength kvs
    ∧ (st.keyCount ≤ o.maxKeys → st'.keyCount ≤ o.maxKeys)
    ∧ st'.pollutedKeys = st.pollutedKeys ++
        (if o.mergeStrategy = "combine" then []
         else arrayPathsEntries o.maxKeyLength o.maxArrayLength kvs path)
    ∧ (o.mergeStrategy = "combine" → st'.polluted = st.polluted)
    ∧ (noDangEntries out = true → noDangEntries out' = true)
    ∧ (noDangEntries st.polluted = true → noDangEntries st'.polluted = true)

lemma noDang_trimValue (t : Bool) {v : JVal} (h : noDangVal v = true) :
    noDangVal (trimValue t v) = true := by
  cases v with
  | str s => cases t <;> simp [trimValue, noDangVal]
  | arr xs => exact h
  | obj kvs => exact h
  | null => rfl
  | undef => rfl
  | bool b => rfl
  | num n => rfl

set_option maxHeartbeats 1000000 in
theorem processNode_ok_facts (o : SanitizeOptions) :
    ∀ v path depth st, nodeFacts o v path depth st := by
  apply processNode.induct o (nodeFacts o) (entriesFacts o) (elemsFacts o)
  -- null
  · intro path depth st v' st' hok
    simp only [processNode, ite_self, Except.ok.injEq, Prod.mk.injEq] at hok
    obtain ⟨rfl, rfl⟩ := hok
    exact ⟨rfl, by simp [countKeysVal], fun h => h, by simp [arrayPathsVal],
      fun _ => rfl, rfl, fun h => h⟩
  -- undef
  · intro path depth st v' st' hok
    simp only [processNode, ite_self, Except.ok.injEq, Prod.mk.injEq] at hok
    obtain ⟨rfl, rfl⟩ := hok
    exact ⟨rfl, by simp [countKeysVal], fun h => h, by simp [arrayPathsVal],
      fun _ => rfl, rfl, fun h => h⟩
  -- arr, elements error
  · intro xs path depth st e helems ih vs st' hok
    simp [processNode, helems] at hok
  -- arr, elements ok, combine
  · intro xs path depth st mapped st1 helems hcomb ih v' st' hok
    obtain ⟨f1, f2, f3, f4, f5, f6, f7⟩ := ih mapped st1 helems
    simp only [processNode, helems] at hok
    rw [if_pos hcomb] at hok
    simp only [Except.ok.injEq, Prod.mk.injEq] at hok
    obtain ⟨rfl, rfl⟩ := hok
    refine ⟨by simpa [hasDeepVal] using f1, by simpa [countKeysVal] using f2, f3, ?_,
      fun _ => f5 hcomb, noDang_mergeValues f6, f7⟩
    rw [f4]
    simp [hcomb]
  -- arr, elements ok, non-combine
  · intro xs path depth st mapped st1 helems hcomb ih v' st' hok
    obtain ⟨f1, f2, f3, f4, f5, f6, f7⟩ := ih mapped st1 helems
    simp only [processNode, helems] at hok
    rw [if_neg hcomb] at hok
    simp only [Except.ok.injEq, Prod.mk.injEq] at hok
    obtain ⟨rfl, rfl⟩ := hok
    refine ⟨by simpa [hasDeepVal] using f1, by simpa [countKeysVal] using f2, f3, ?_,
      fun hc => absurd hc hcomb, noDang_mergeValues f6, ?_⟩
    · show st1.pollutedKeys ++ [joinDots path] = _
      rw [f4]
      simp [hcomb, arrayPathsVal, List.append_assoc]
    · intro h0
      exact noDang_setIn (f7 h0) (noDang_clone _ _ _)
  -- obj, too deep
  · intro kvs path depth st hdeep v' st' hok
    simp only [processNode] at hok
    rw [if_pos hdeep] at hok
    simp at hok
  -- obj, entries error
  · intro kvs path depth st hdeep e hentries ih v' st' hok
    simp only [processNode] at hok
    rw [if_neg hdeep] at hok
    simp [hentries] at hok
  -- obj, entries ok
  · intro kvs path depth st hdeep out st1 hentries ih v' st' hok
    obtain ⟨f1, f2, f3, f4, f5, f6, f7⟩ := ih out st1 hentries
    simp only [processNode] at hok
    rw [if_neg hdeep] at hok
    rw [hentries] at hok
    simp only [Except.ok.injEq, Prod.mk.injEq] at hok
    obtain ⟨rfl, rfl⟩ := hok
    refine ⟨?_, by simpa [countKeysVal] using f2, f3, by simpa [arrayPathsVal] using f4, f5, ?_, f7⟩
    · simp [hasDeepVal, f1, hdeep]
    · simpa [noDangVal] using f6 (by simp [noDangEntries])
  -- bool
  · intro b path depth st v' st' hok
    simp only [processNode, Except.ok.injEq, Prod.mk.injEq] at hok
    obtain ⟨rfl, rfl⟩ := hok
    exact ⟨rfl, by simp [countKeysVal], fun h => h, by simp [arrayPathsVal],
      fun _ => rfl, rfl, fun h => h⟩
  -- num
  · intro n path depth st v' st' hok
    simp only [processNode, Except.ok.injEq, Prod.mk.injEq] at hok
    obtain ⟨rfl, rfl⟩ := hok
    exact ⟨rfl, by simp [countKeysVal], fun h => h, by simp [arrayPathsVal],
      fun _ => rfl, rfl, fun h => h⟩
  -- str
  · intro s path depth st v' st' hok
    simp only [processNode, Except.ok.injEq, Prod.mk.injEq] at hok
    obtain ⟨rfl, rfl⟩ := hok
    exact ⟨rfl, by simp [countKeysVal], fun h => h, by simp [arrayPathsVal],
      fun _ => rfl, rfl, fun h => h⟩
  -- elems nil
  · intro b path depth st vs st' hok
    simp only [processElems, Except.ok.injEq, Prod.mk.injEq] at hok
    obtain ⟨rfl, rfl⟩ := hok
    exact ⟨by simp [hasDeepElems], by simp [countKeysElems], fun h => h,
      by simp [arrayPathsElems], fun _ => rfl, rfl, fun h => h⟩
  -- elems budget zero
  · intro x xs path depth st vs st' hok
    simp only [processElems, Except.ok.injEq, Prod.mk.injEq] at hok
    obtain ⟨rfl, rfl⟩ := hok
    exact ⟨by simp [hasDeepElems], by simp [countKeysElems], fun h => h,
      by simp [arrayPathsElems], fun _ => rfl, rfl, fun h => h⟩
  -- elems head error
  · intro b x xs path depth st e hx ih vs st' hok
    simp [processElems, hx] at hok
  -- elems head ok tail error
  · intro b x xs path depth st v st1 hx e htail ih1 ih2 vs st' hok
    simp [processElems, hx, htail] at hok
  -- elems head ok tail ok
  · intro b x xs path depth st v st1 hx mapped st2 htail ih1 ih2 vs st' hok
    obtain ⟨g1, g2, g3, g4, g5, g6, g7⟩ := ih1 v st1 hx
    obtain ⟨k1, k2, k3, k4, k5, k6, k7⟩ := ih2 mapped st2 htail
    simp only [processElems, hx, htail, Except.ok.injEq, Prod.mk.injEq] at hok
    obtain ⟨rfl, rfl⟩ := hok
    refine ⟨?_, ?_, fun hb => k3 (g3 hb), ?_, fun hc => by rw [k5 hc, g5 hc], ?_,
      fun h0 => k7 (g7 h0)⟩
    · simp [hasDeepElems, g1, k1]
    · rw [k2, g2]
      simp [countKeysElems]
      omega
    · rw [k4, g4]
      by_cases hc : o.mergeStrategy = "combine"
      · simp [hc]
      · simp [hc, arrayPathsElems, List.append_assoc]
    · simp [noDangList, g6, k6]
  -- entries nil
  · intro path depth st out out' st' hok
    simp only [processEntries, Except.ok.injEq, Prod.mk.injEq] at hok
    obtain ⟨rfl, rfl⟩ := hok
    exact ⟨by simp [hasDeepEntries], by simp [countKeysEntries], fun h => h,
      by simp [arrayPathsEntries], fun _ => rfl, fun h => h, fun h => h⟩
  -- entries counter overflow
  · intro rawKey child rest path depth st out st1 hover out' st' hok
    simp only [processEntries] at hok
    rw [if_pos hover] at hok
    simp at hok
  -- entries kept child error
  · intro rawKey child rest path depth st out st1 hover hkept e hchild ih out' st' hok
    simp only [processEntries] at hok
    rw [if_neg hover] at hok
    simp [hkept, hchild] at hok
  -- entries kept child ok
  · intro rawKey child rest path depth st out st1 hover hkept v st2 hchild ih1 ih2 out' st' hok
    obtain ⟨g1, g2, g3, g4, g5, g6, g7⟩ := ih1 v st2 hchild
    simp only [processEntries] at hok
    rw [if_neg hover] at hok
    rw [if_pos hkept] at hok
    rw [hchild] at hok
    obtain ⟨e1, e2, e3, e4, e5, e6, e7⟩ := ih2 out' st' hok
    have hst1le : st1.keyCount ≤ o.maxKeys := Nat.le_of_not_lt hover
    have hv2 := noDang_trimValue o.trimValues g6
    refine ⟨?_, ?_, fun hb => e3 (g3 hst1le), ?_, ?_, ?_, fun h0 => e7 (g7 h0)⟩
    · simp [hasDeepEntries, g1, e1]
    · rw [e2, g2]
      show _ = st.keyCount + countKeysEntries o.maxKeyLength o.maxArrayLength ((rawKey, child) :: rest)
      simp [countKeysEntries, hkept]
      omega
    · rw [e4, g4]
      by_cases hc : o.mergeStrategy = "combine"
      · simp [hc]
      · simp [hc, arrayPathsEntries, hkept, List.append_assoc]
    · intro hc
      rw [e5 hc, g5 hc]
    · intro h0
      exact e6 (noDang_setKey h0 (keyKept_not_dangerous hkept) hv2)
  -- entries not kept
  · intro rawKey child rest path depth st out st1 hover hkept ih out' st' hok
    have hk0 : keyKept rawKey o.maxKeyLength = false := by simpa using hkept
    simp only [processEntries] at hok
    rw [if_neg hover] at hok
    rw [if_neg hkept] at hok
    obtain ⟨e1, e2, e3, e4, e5, e6, e7⟩ := ih out' st' hok
    have hst1le : st1.keyCount ≤ o.maxKeys := Nat.le_of_not_lt hover
    refine ⟨?_, ?_, fun hb => e3 hst1le, ?_, e5, e6, e7⟩
    · simp [hasDeepEntries, hk0, e1]
    · rw [e2]
      simp [countKeysEntries, hk0]
      omega
    · rw [e4]
      by_cases hc : o.mergeStrategy = "combine"
      · simp [hc]
      · simp [hc, arrayPathsEntries, hk0]

mutual

lemma noDang_mwWalk (isW : List String → Bool) :
    ∀ (node : List (String × JVal)) (base : List String),
      noDangEntries node = true →
      noDangEntries (mwWalk isW node base).1 = true
        ∧ ∀ pv ∈ (mwWalk isW node base).2, noDangVal pv.2 = true
  | [], _, _ => by simp [mwWalk, noDangEntries]
  | (k, v) :: rest, base, h => by
      simp only [noDangEntries, Bool.and_eq_true, Bool.not_eq_true'] at h
      obtain ⟨⟨hk, hv⟩, hrest⟩ := h
      obtain ⟨w1, w2⟩ := noDang_mwWalk isW rest base hrest
      obtain ⟨e1, e2⟩ := noDang_mwEntry isW k v (base ++ [k]) hk hv
      constructor
      · simp only [mwWalk]
        cases he : (mwEntry isW k v (base ++ [k])).1 with
        | none => simpa [he] using w1
        | some p =>
            have hp := e1 p he
            simp only [he]
            simp only [noDangEntries, Bool.and_eq_true, Bool.not_eq_true']
            exact ⟨⟨hp.1, hp.2⟩, w1⟩
      · intro pv hpv
        simp only [mwWalk, List.mem_append] at hpv
        rcases hpv with hpv | hpv
        · exact e2 pv hpv
        · exact w2 pv hpv

lemma noDang_mwEntry (isW : List String → Bool) (k : String) :
    ∀ (v : JVal) (curPath : List String),
      isDangerousKey k = false → noDangVal v = true →
      (∀ p, (mwEntry isW k v curPath).1 = some p →
         isDangerousKey p.1 = false ∧ noDangVal p.2 = true)
        ∧ ∀ pv ∈ (mwEntry isW k v curPath).2, noDangVal pv.2 = true
  | JVal.obj m, curPath, hk, hv => by
      obtain ⟨w1, w2⟩ := noDang_mwWalk isW m curPath (by simpa [noDangVal] using hv)
      constructor
      · intro p hp
        simp only [mwEntry] at hp
        by_cases he : (mwWalk isW m curPath).1.isEmpty
        · simp [he] at hp
        · simp [he] at hp
          subst hp
          exact ⟨hk, by simpa [noDangVal] using w1⟩
      · intro pv hpv
        simp only [mwEntry] at hpv
        by_cases he : (mwWalk isW m curPath).1.isEmpty
        · simp [he] at hpv
          exact w2 pv hpv
        · simp [he] at hpv
          exact w2 pv hpv
  | JVal.null, curPath, hk, hv => by
      constructor
      · intro p hp
        simp only [mwEntry] at hp
        by_cases hw : isW curPath
        · simp [hw] at hp
        · simp [hw] at hp
          subst hp
          exact ⟨hk, hv⟩
      · intro pv hpv
        simp only [mwEntry] at hpv
        by_cases hw : isW curPath
        · simp [hw] at hpv
          subst hpv
          exact hv
        · simp [hw] at hpv
  | JVal.undef, curPath, hk, hv => by
      constructor
      · intro p hp
        simp only [mwEntry] at hp
        by_cases hw : isW curPath
        · simp [hw] at hp
        · simp [hw] at hp
          subst hp
          exact ⟨hk, hv⟩
      · intro pv hpv
        simp only [mwEntry] at hpv
        by_cases hw : isW curPath
        · simp [hw] at hpv
          subst hpv
          exact hv
        · simp [hw] at hpv
  | JVal.bool b, curPath, hk, hv => by
      constructor
      · intro p hp
        simp only [mwEntry] at hp
        by_cases hw : isW curPath
        · simp [hw] at hp
        · simp [hw] at hp
          subst hp
          exact ⟨hk, hv⟩
      · intro pv hpv
        simp only [mwEntry] at hpv
        by_cases hw : isW curPath
        · simp [hw] at hpv
          subst hpv
          exact hv
        · simp [hw] at hpv
  | JVal.num n, curPath, hk, hv => by
      constructor
      · intro p hp
        simp only [mwEntry] at hp
        by_cases hw : isW curPath
        · simp [hw] at hp
        · simp [hw] at hp
          subst hp
          exact ⟨hk, hv⟩
      · intro pv hpv
        simp only [mwEntry] at hpv
        by_cases hw : isW curPath
        · simp [hw] at hpv
          subst hpv
          exact hv
        · simp [hw] at hpv
  | JVal.str s, curPath, hk, hv => by
      constructor
      · intro p hp
        simp only [mwEntry] at hp
        by_cases hw : isW curPath
        · simp [hw] at hp
        · simp [hw] at hp
          subst hp
          exact ⟨hk, hv⟩
      · intro pv hpv
        simp only [mwEntry] at hpv
        by_cases hw : isW curPath
        · simp [hw] at hpv
          subst hpv
          exact hv
        · simp [hw] at hpv
  | JVal.arr xs, curPath, hk, hv => by
      constructor
      · intro p hp
        simp only [mwEntry] at hp
        by_cases hw : isW curPath
        · simp [hw] at hp
        · simp [hw] at hp
          subst hp
          exact ⟨hk, hv⟩
      · intro pv hpv
        simp only [mwEntry] at hpv
        by_cases hw : isW curPath
        · simp [hw] at hpv
          subst hpv
          exact hv
        · simp [hw] at hpv

end

lemma noDang_applyRestores {c : JVal} {acts : List (List String × JVal)}
    (hc : noDangVal c = true) (ha : ∀ pv ∈ acts, noDangVal pv.2 = true) :
    noDangVal (applyRestores c acts) = true := by
  induction acts generalizing c with
  | nil => simpa [applyRestores] using hc
  | cons a rest ih =>
      have ha2 : ∀ pv ∈ rest, noDangVal pv.2 = true := fun pv hpv => ha pv (by simp [hpv])
      cases c with
      | obj m =>
          have hm : noDangEntries m = true := by simpa [noDangVal] using hc
          have hnew : noDangEntries (setIn m a.1 a.2) = true :=
            noDang_setIn hm (ha a (by simp))
          show noDangVal (applyRestores (JVal.obj (setIn m a.1 a.2)) rest) = true
          exact ih (by simpa [noDangVal] using hnew) ha2
      | null =>
          show noDangVal (applyRestores JVal.null rest) = true
          exact ih hc ha2
      | undef =>
          show noDangVal (applyRestores JVal.undef rest) = true
          exact ih hc ha2
      | bool b =>
          show noDangVal (applyRestores (JVal.bool b) rest) = true
          exact ih hc ha2
      | num n =>
          show noDangVal (applyRestores (JVal.num n) rest) = true
          exact ih hc ha2
      | str s =>
          show noDangVal (applyRestores (JVal.str s) rest) = true
          exact ih hc ha2
      | arr xs =>
          show noDangVal (applyRestores (JVal.arr xs) rest) = true
          exact ih hc ha2

/-- Unfolding of a successful pipeline run into its `processNode` core. -/
lemma sanitizePipeline_ok {input : List (String × JVal)} {o : SanitizeOptions}
    {r : SanitizedResult} (h : sanitizePipeline input o = Except.ok r) :
    ∃ cleaned st,
      processNode o
          (safeDeepClone o.maxKeyLength o.maxArrayLength
            (JVal.obj (expandObjectPaths o.maxKeyLength input)))
          [] 0 { keyCount := 0, polluted := [], pollutedKeys := [] }
        = Except.ok (cleaned, st)
      ∧ r.cleaned = (moveWhitelistedFromPolluted (isWhitelistedPath o.whitelist)
          cleaned st.polluted).1
      ∧ r.pollutedTree = (moveWhitelistedFromPolluted (isWhitelistedPath o.whitelist)
          cleaned st.polluted).2
      ∧ r.pollutedKeys = st.pollutedKeys := by
  simp only [sanitizePipeline, detectAndReduce] at h
  cases hp : processNode o
      (safeDeepClone o.maxKeyLength o.maxArrayLength
        (JVal.obj (expandObjectPaths o.maxKeyLength input)))
      [] 0 { keyCount := 0, polluted := [], pollutedKeys := [] } with
  | error e =>
      simp only [hp] at h
      exact absurd h (by simp)
  | ok p =>
      obtain ⟨cleaned, st⟩ := p
      simp only [hp, Except.ok.injEq] at h
      subst h
      exact ⟨cleaned, st, rfl, rfl, rfl, rfl⟩

/-- C1 (amended): whenever `sanitize` completes, the returned cleaned
tree has no own enumerable property named `__proto__`, `prototype` or
`constructor` at any level; offending keys and their subtrees are
dropped rather than raising (a `sanitize` error can only be the depth
or key-count budget, never a bad key — see `SanErr`). -/
theorem C1_dangerous_keys_excluded (input : List (String × JVal))
    (o : SanitizeOptions) (c : JVal) (h : sanitize input o = Except.ok c) :
    noDangVal c = true := by
  have hpipe : ∃ r, sanitizePipeline input o = Except.ok r ∧ r.cleaned = c := by
    simp only [sanitize] at h
    cases hp : sanitizePipeline input o with
    | error e =>
        simp only [hp] at h
        exact absurd h (by simp)
    | ok r =>
        simp only [hp, Except.ok.injEq] at h
        exact ⟨r, rfl, h⟩
  obtain ⟨r, hr, hc⟩ := hpipe
  obtain ⟨cleaned, st, hnode, hcl, hpt, hpk⟩ := sanitizePipeline_ok hr
  obtain ⟨f1, f2, f3, f4, f5, f6, f7⟩ := processNode_ok_facts o _ [] 0 _ cleaned st hnode
  have hpol : noDangEntries st.polluted = true := f7 (by simp [noDangEntries])
  obtain ⟨w1, w2⟩ := noDang_mwWalk (isWhitelistedPath o.whitelist) st.polluted [] hpol
  subst hc
  rw [hcl]
  exact noDang_applyRestores f6 w2

/-- Witness for C1 at the spec's scenario 5 input. -/
theorem C1_witness :
    sanitize [("__proto__", JVal.obj [("isAdmin", JVal.bool true)]), ("safe", JVal.str "ok")]
        defaultOptions = Except.ok (JVal.obj [("safe", JVal.str "ok")]) ∧
    noDangVal (JVal.obj [("safe", JVal.str "ok")]) = true := by
  refine ⟨rfl, ?_⟩
  exact C1_dangerous_keys_excluded
    [("__proto__", JVal.obj [("isAdmin", JVal.bool true)]), ("safe", JVal.str "ok")]
    defaultOptions (JVal.obj [("safe", JVal.str "ok")]) rfl

/-- C6: under the `combine` strategy no pollution is recorded (empty
polluted tree and empty key list on every successful run), and the
spec's concrete scenario flattens `{x:[[1],[2]]}` to `{x:[1,2]}`. -/
theorem C6_combine_no_pollution :
    (∀ (input : List (String × JVal)) (o : SanitizeOptions) (r : SanitizedResult),
      o.mergeStrategy = "combine" → sanitizePipeline input o = Except.ok r →
      r.pollutedTree = [] ∧ r.pollutedKeys = []) ∧
    sanitizePipeline [("x", JVal.arr [JVal.arr [JVal.num 1], JVal.arr [JVal.num 2]])]
        { defaultOptions with mergeStrategy := "combine" }
      = Except.ok { cleaned := JVal.obj [("x", JVal.arr [JVal.num 1, JVal.num 2])],
                    pollutedTree := [], pollutedKeys := [] } := by
  refine ⟨?_, rfl⟩
  intro input o r hc h
  obtain ⟨cleaned, st, hnode, hcl, hpt, hpk⟩ := sanitizePipeline_ok h
  obtain ⟨f1, f2, f3, f4, f5, f6, f7⟩ := processNode_ok_facts o _ [] 0 _ cleaned st hnode
  have hkeys : st.pollutedKeys = [] := by
    rw [f4]
    simp [hc]
  have hpol : st.polluted = [] := f5 hc
  constructor
  · rw [hpt, hpol]
    rfl
  · rw [hpk, hkeys]

/-- Witness for C6 at the concrete combine run. -/
theorem C6_witness :
    ({ defaultOptions with mergeStrategy := "combine" } : SanitizeOptions).mergeStrategy
      = "combine" ∧
    sanitizePipeline [("y", JVal.arr [JVal.num 7])]
        { defaultOptions with mergeStrategy := "combine" }
      = Except.ok { cleaned := JVal.obj [("y", JVal.arr [JVal.num 7])],
                    pollutedTree := [], pollutedKeys := [] } ∧
    ({ cleaned := JVal.obj [("y", JVal.arr [JVal.num 7])],
       pollutedTree := [], pollutedKeys := [] } : SanitizedResult).pollutedTree = [] ∧
    ({ cleaned := JVal.obj [("y", JVal.arr [JVal.num 7])],
       pollutedTree := [], pollutedKeys := [] } : SanitizedResult).pollutedKeys = [] := by
  have h := C6_combine_no_pollution.1 [("y", JVal.arr [JVal.num 7])]
    ({ defaultOptions with mergeStrategy := "combine" })
    ({ cleaned := JVal.obj [("y", JVal.arr [JVal.num 7])],
       pollutedTree := [], pollutedKeys := [] }) rfl rfl
  exact ⟨rfl, rfl, h.1, h.2⟩

/-- C3 (amended): under a non-`combine` strategy, `pollutedKeys` is
exactly the spec-level list `arrayPathsVal` of canonical dot-paths of
every array node visited (elements before the enclosing array, object
keys in insertion order, truncated and guard-filtered), one entry per
array node regardless of its length and regardless of whitelisting. -/
theorem C3_pollution_accounting (input : List (String × JVal)) (o : SanitizeOptions)
    (r : SanitizedResult) (hS : o.mergeStrategy ≠ "combine")
    (h : sanitizePipeline input o = Except.ok r) :
    r.pollutedKeys = arrayPathsVal o.maxKeyLength o.maxArrayLength
      (safeDeepClone o.maxKeyLength o.maxArrayLength
        (JVal.obj (expandObjectPaths o.maxKeyLength input))) [] := by
  obtain ⟨cleaned, st, hnode, hcl, hpt, hpk⟩ := sanitizePipeline_ok h
  obtain ⟨f1, f2, f3, f4, f5, f6, f7⟩ := processNode_ok_facts o _ [] 0 _ cleaned st hnode
  rw [hpk, f4]
  simp [hS]

/-- Witness for C3 at the single-element-array input. -/
theorem C3_witness :
    defaultOptions.mergeStrategy ≠ "combine" ∧
    (sanitizePipeline [("a", JVal.arr [JVal.str "x"])] defaultOptions).map
        SanitizedResult.pollutedKeys
      = Except.ok (arrayPathsVal 200 1000
          (safeDeepClone 200 1000
            (JVal.obj (expandObjectPaths 200 [("a", JVal.arr [JVal.str "x"])]))) []) := by
  have hS : defaultOptions.mergeStrategy ≠ "combine" := by decide
  refine ⟨hS, ?_⟩
  have := C3_pollution_accounting [("a", JVal.arr [JVal.str "x"])] defaultOptions
    ({ cleaned := JVal.obj [("a", JVal.str "x")],
       pollutedTree := [("a", JVal.arr [JVal.str "x"])], pollutedKeys := ["a"] }) hS rfl
  have hpipe : sanitizePipeline [("a", JVal.arr [JVal.str "x"])] defaultOptions
      = Except.ok ({ cleaned := JVal.obj [("a", JVal.str "x")],
                     pollutedTree := [("a", JVal.arr [JVal.str "x"])],
                     pollutedKeys := ["a"] } : SanitizedResult) := rfl
  rw [hpipe]
  simpa [Except.map, defaultOptions] using this

set_option maxHeartbeats 1000000 in
theorem processNode_complete (o : SanitizeOptions) :
    ∀ v path depth st,
      hasDeepVal o.maxKeyLength o.maxArrayLength o.maxDepth v depth = false →
      st.keyCount + countKeysVal o.maxKeyLength o.maxArrayLength v ≤ o.maxKeys →
      ∃ v' st', processNode o v path depth st = Except.ok (v', st')
        ∧ st'.keyCount = st.keyCount + countKeysVal o.maxKeyLength o.maxArrayLength v := by
  apply processNode.induct o
    (fun v path depth st =>
      hasDeepVal o.maxKeyLength o.maxArrayLength o.maxDepth v depth = false →
      st.keyCount + countKeysVal o.maxKeyLength o.maxArrayLength v ≤ o.maxKeys →
      ∃ v' st', processNode o v path depth st = Except.ok (v', st')
        ∧ st'.keyCount = st.keyCount + countKeysVal o.maxKeyLength o.maxArrayLength v)
    (fun kvs path depth st out =>
      hasDeepEntries o.maxKeyLength o.maxArrayLength o.maxDepth kvs depth = false →
      st.keyCount + countKeysEntries o.maxKeyLength o.maxArrayLength kvs ≤ o.maxKeys →
      ∃ out' st', processEntries o kvs path depth st out = Except.ok (out', st')
        ∧ st'.keyCount = st.keyCount + countKeysEntries o.maxKeyLength o.maxArrayLength kvs)
    (fun b xs path depth st =>
      hasDeepElems o.maxKeyLength o.maxArrayLength o.maxDepth b xs depth = false →
      st.keyCount + countKeysElems o.maxKeyLength o.maxArrayLength b xs ≤ o.maxKeys →
      ∃ vs st', processElems o b xs path depth st = Except.ok (vs, st')
        ∧ st'.keyCount = st.keyCount + countKeysElems o.maxKeyLength o.maxArrayLength b xs)
  -- null
  · intro path depth st h1 h2
    exact ⟨JVal.null, st, by simp [processNode], by simp [countKeysVal]⟩
  -- undef
  · intro path depth st h1 h2
    exact ⟨JVal.undef, st, by simp [processNode], by simp [countKeysVal]⟩
  -- arr, elements error
  · intro xs path depth st e helems ih h1 h2
    obtain ⟨vs, st', hok, hcnt⟩ := ih (by simpa [hasDeepVal] using h1)
      (by simpa [countKeysVal] using h2)
    rw [helems] at hok
    exact absurd hok (by simp)
  -- arr, elements ok, combine
  · intro xs path depth st mapped st1 helems hcomb ih h1 h2
    obtain ⟨vs, st', hok, hcnt⟩ := ih (by simpa [hasDeepVal] using h1)
      (by simpa [countKeysVal] using h2)
    rw [helems] at hok
    simp only [Except.ok.injEq, Prod.mk.injEq] at hok
    obtain ⟨rfl, rfl⟩ := hok
    refine ⟨mergeValues mapped "combine", st1, ?_, by simpa [countKeysVal] using hcnt⟩
    simp only [processNode, helems]
    rw [if_pos hcomb]
  -- arr, elements ok, non-combine
  · intro xs path depth st mapped st1 helems hcomb ih h1 h2
    obtain ⟨vs, st', hok, hcnt⟩ := ih (by simpa [hasDeepVal] using h1)
      (by simpa [countKeysVal] using h2)
    rw [helems] at hok
    simp only [Except.ok.injEq, Prod.mk.injEq] at hok
    obtain ⟨rfl, rfl⟩ := hok
    refine ⟨mergeValues mapped o.mergeStrategy,
      { keyCount := st1.keyCount,
        polluted := setIn st1.polluted path
          (safeDeepClone o.maxKeyLength o.maxArrayLength (JVal.arr xs)),
        pollutedKeys := st1.pollutedKeys ++ [joinDots path] }, ?_, ?_⟩
    · simp only [processNode, helems]
      rw [if_neg hcomb]
    · simpa [countKeysVal] using hcnt
  -- obj, too deep
  · intro kvs path depth st hdeep h1 h2
    simp [hasDeepVal, hdeep] at h1
  -- obj, entries error
  · intro kvs path depth st hdeep e hentries ih h1 h2
    obtain ⟨out', st', hok, hcnt⟩ := ih (by simpa [hasDeepVal, hdeep] using h1)
      (by simpa [countKeysVal] using h2)
    rw [hentries] at hok
    exact absurd hok (by simp)
  -- obj, entries ok
  · intro kvs path depth st hdeep out st1 hentries ih h1 h2
    obtain ⟨out', st', hok, hcnt⟩ := ih (by simpa [hasDeepVal, hdeep] using h1)
      (by simpa [countKeysVal] using h2)
    rw [hentries] at hok
    simp only [Except.ok.injEq, Prod.mk.injEq] at hok
    obtain ⟨rfl, rfl⟩ := hok
    refine ⟨JVal.obj out, st1, ?_, by simpa [countKeysVal] using hcnt⟩
    simp only [processNode]
    rw [if_neg hdeep, hentries]
  -- bool
  · intro b path depth st h1 h2
    exact ⟨JVal.bool b, st, by simp [processNode], by simp [countKeysVal]⟩
  -- num
  · intro n path depth st h1 h2
    exact ⟨JVal.num n, st, by simp [processNode], by simp [countKeysVal]⟩
  -- str
  · intro s path depth st h1 h2
    exact ⟨JVal.str s, st, by simp [processNode], by simp [countKeysVal]⟩
  -- elems nil
  · intro b path depth st h1 h2
    exact ⟨[], st, by simp [processElems], by simp [countKeysElems]⟩
  -- elems budget zero
  · intro x xs path depth st h1 h2
    exact ⟨[], st, by simp [processElems], by simp [countKeysElems]⟩
  -- elems head error
  · intro b x xs path depth st e hx ih h1 h2
    simp only [hasDeepElems, Bool.or_eq_false_iff] at h1
    obtain ⟨v', st', hok, hcnt⟩ := ih h1.1 (by simp [countKeysElems] at h2; omega)
    rw [hx] at hok
    exact absurd hok (by simp)
  -- elems head ok tail error
  · intro b x xs path depth st v st1 hx e htail ih1 ih2 h1 h2
    simp only [hasDeepElems, Bool.or_eq_false_iff] at h1
    obtain ⟨f1, f2, f3, f4, f5, f6, f7⟩ := processNode_ok_facts o x path depth st v st1 hx
    obtain ⟨vs, st', hok, hcnt⟩ := ih2 h1.2 (by simp [countKeysElems] at h2; omega)
    rw [htail] at hok
    exact absurd hok (by simp)
  -- elems head ok tail ok
  · intro b x xs path depth st v st1 hx mapped st2 htail ih1 ih2 h1 h2
    simp only [hasDeepElems, Bool.or_eq_false_iff] at h1
    obtain ⟨f1, f2, f3, f4, f5, f6, f7⟩ := processNode_ok_facts o x path depth st v st1 hx
    obtain ⟨vs, st', hok, hcnt⟩ := ih2 h1.2 (by simp [countKeysElems] at h2; omega)
    rw [htail] at hok
    simp only [Except.ok.injEq, Prod.mk.injEq] at hok
    obtain ⟨rfl, rfl⟩ := hok
    refine ⟨v :: mapped, st2, ?_, ?_⟩
    · simp only [processElems, hx, htail]
    · simp only [countKeysElems]
      omega
  -- entries nil
  · intro path depth st out h1 h2
    exact ⟨out, st, by simp [processEntries], by simp [countKeysEntries]⟩
  -- entries counter overflow
  · intro rawKey child rest path depth st out st1 hover h1 h2
    simp only [countKeysEntries] at h2
    exact absurd hover (by simp only [not_lt]; omega)
  -- entries kept child error
  · intro rawKey child rest path depth st out st1 hover hkept e hchild ih h1 h2
    simp only [hasDeepEntries, Bool.or_eq_false_iff, Bool.and_eq_false_iff] at h1
    have hdc : hasDeepVal o.maxKeyLength o.maxArrayLength o.maxDepth child (depth + 1) = false := by
      rcases h1.1 with hk | hd
      · rw [hkept] at hk; cases hk
      · exact hd
    simp only [countKeysEntries, hkept, if_pos] at h2
    obtain ⟨v', st', hok, hcnt⟩ := ih hdc (by simp only [SanState.mk.injEq]; omega)
    rw [hchild] at hok
    exact absurd hok (by simp)
  -- entries kept child ok
  · intro rawKey child rest path depth st out st1 hover hkept v st2 hchild ih1 ih2 h1 h2
    simp only [hasDeepEntries, Bool.or_eq_false_iff, Bool.and_eq_false_iff] at h1
    obtain ⟨f1, f2, f3, f4, f5, f6, f7⟩ :=
      processNode_ok_facts o child (path ++ [rawKey]) (depth + 1) st1 v st2 hchild
    simp only [countKeysEntries, hkept, if_pos] at h2
    obtain ⟨out', st', hok, hcnt⟩ := ih2 h1.2 (by
      rw [f2]
      simp only [SanState.mk.injEq]
      omega)
    refine ⟨out', st', ?_, ?_⟩
    · simp only [processEntries]
      rw [if_neg hover, if_pos hkept, hchild]
      exact hok
    · rw [hcnt, f2]
      simp only [countKeysEntries, hkept, if_pos]
      omega
  -- entries not kept
  · intro rawKey child rest path depth st out st1 hover hkept ih h1 h2
    have hk0 : keyKept rawKey o.maxKeyLength = false := by simpa using hkept
    simp only [hasDeepEntries, Bool.or_eq_false_iff, Bool.and_eq_false_iff] at h1
    simp [countKeysEntries, hk0] at h2
    obtain ⟨out', st', hok, hcnt⟩ := ih h1.2 (by simp only [SanState.mk.injEq]; omega)
    refine ⟨out', st', ?_, ?_⟩
    · simp only [processEntries]
      rw [if_neg hover, if_neg hkept]
      exact hok
    · rw [hcnt]
      simp [countKeysEntries, hk0]
      omega

/-- C5: `sanitize` raises an error if and only if the (expanded,
cloned) input reaches a plain object strictly deeper than `maxDepth`
along kept keys, or its cumulative processed key count exceeds
`maxKeys`; and the only possible errors are these two — malformed keys
and over-long arrays never raise. -/
theorem C5_error_characterization (input : List (String × JVal)) (o : SanitizeOptions) :
    ((∃ e, sanitize input o = Except.error e) ↔
      (hasDeepVal o.maxKeyLength o.maxArrayLength o.maxDepth
          (safeDeepClone o.maxKeyLength o.maxArrayLength
            (JVal.obj (expandObjectPaths o.maxKeyLength input))) 0 = true
        ∨ countKeysVal o.maxKeyLength o.maxArrayLength
            (safeDeepClone o.maxKeyLength o.maxArrayLength
              (JVal.obj (expandObjectPaths o.maxKeyLength input))) > o.maxKeys)) ∧
    (∀ e, sanitize input o = Except.error e →
      e = SanErr.depthExceeded ∨ e = SanErr.keyCountExceeded) := by
  constructor
  · constructor
    · rintro ⟨e, he⟩
      by_contra hnot
      push_neg at hnot
      obtain ⟨ha, hb⟩ := hnot
      have ha2 : hasDeepVal o.maxKeyLength o.maxArrayLength o.maxDepth
          (safeDeepClone o.maxKeyLength o.maxArrayLength
            (JVal.obj (expandObjectPaths o.maxKeyLength input))) 0 = false := by
        cases hx : hasDeepVal o.maxKeyLength o.maxArrayLength o.maxDepth
            (safeDeepClone o.maxKeyLength o.maxArrayLength
              (JVal.obj (expandObjectPaths o.maxKeyLength input))) 0
        · rfl
        · exact absurd hx ha
      obtain ⟨v', st', hok, hcnt⟩ := processNode_complete o
        (safeDeepClone o.maxKeyLength o.maxArrayLength
          (JVal.obj (expandObjectPaths o.maxKeyLength input)))
        [] 0 { keyCount := 0, polluted := [], pollutedKeys := [] } ha2
        (by simpa using hb)
      simp only [sanitize, sanitizePipeline, detectAndReduce, hok] at he
      exact absurd he (by simp)
    · intro hrhs
      cases hp : processNode o
          (safeDeepClone o.maxKeyLength o.maxArrayLength
            (JVal.obj (expandObjectPaths o.maxKeyLength input)))
          [] 0 { keyCount := 0, polluted := [], pollutedKeys := [] } with
      | error e =>
          exact ⟨e, by simp only [sanitize, sanitizePipeline, detectAndReduce, hp]⟩
      | ok p =>
          obtain ⟨v, st⟩ := p
          obtain ⟨f1, f2, f3, f4, f5, f6, f7⟩ :=
            processNode_ok_facts o _ [] 0 _ v st hp
          rcases hrhs with hd | hc
          · rw [f1] at hd
            cases hd
          · have hle := f3 (Nat.zero_le _)
            rw [f2] at hle
            simp only [SanState.mk.injEq] at hle hc
            omega
  · intro e he
    cases e
    · exact Or.inl rfl
    · exact Or.inr rfl

/-- Witness for C5 at a concrete deep input (`maxDepth := 1`): the
characterization applied at `{a:{b:{c:0}}}` yields the depth error. -/
theorem C5_witness :
    (∃ e, sanitize [("a", JVal.obj [("b", JVal.obj [("c", JVal.num 0)])])]
        { defaultOptions with maxDepth := 1 } = Except.error e) ∧
    sanitize [("a", JVal.obj [("b", JVal.obj [("c", JVal.num 0)])])]
        { defaultOptions with maxDepth := 1 } = Except.error SanErr.depthExceeded := by
  refine ⟨?_, rfl⟩
  exact (C5_error_characterization
    [("a", JVal.obj [("b", JVal.obj [("c", JVal.num 0)])])]
    { defaultOptions with maxDepth := 1 }).1.mpr (Or.inl rfl)

set_option maxHeartbeats 1000000 in
theorem processNode_pnIrrel (o : SanitizeOptions) (b : Bool) :
    ∀ v path depth st,
      processNode { o with preserveNull := b } v path depth st
        = processNode o v path depth st := by
  apply processNode.induct o
    (fun v path depth st =>
      processNode { o with preserveNull := b } v path depth st
        = processNode o v path depth st)
    (fun kvs path depth st out =>
      processEntries { o with preserveNull := b } kvs path depth st out
        = processEntries o kvs path depth st out)
    (fun bb xs path depth st =>
      processElems { o with preserveNull := b } bb xs path depth st
        = processElems o bb xs path depth st)
  · intro path depth st
    simp [processNode]
  · intro path depth st
    simp [processNode]
  · intro xs path depth st e helems ih
    simp [processNode, ih, helems]
  · intro xs path depth st mapped st1 helems hcomb ih
    simp [processNode, ih, helems]
  · intro xs path depth st mapped st1 helems hcomb ih
    simp [processNode, ih, helems]
  · intro kvs path depth st hdeep
    simp [processNode, hdeep]
  · intro kvs path depth st hdeep e hentries ih
    simp [processNode, hdeep, ih, hentries]
  · intro kvs path depth st hdeep out st1 hentries ih
    simp [processNode, hdeep, ih, hentries]
  · intro b2 path depth st
    simp [processNode]
  · intro n path depth st
    simp [processNode]
  · intro s path depth st
    simp [processNode]
  · intro bb path depth st
    simp [processElems]
  · intro x xs path depth st
    simp [processElems]
  · intro bb x xs path depth st e hx ih
    simp [processElems, ih, hx]
  · intro bb x xs path depth st v st1 hx e htail ih1 ih2
    simp [processElems, ih1, hx, ih2, htail]
  · intro bb x xs path depth st v st1 hx mapped st2 htail ih1 ih2
    simp [processElems, ih1, hx, ih2, htail]
  · intro path depth st out
    simp [processEntries]
  · intro rawKey child rest path depth st out st1 hover
    simp [processEntries, hover]
  · intro rawKey child rest path depth st out st1 hover hkept e hchild ih
    simp [processEntries, hover, hkept, ih, hchild]
  · intro rawKey child rest path depth st out st1 hover hkept v st2 hchild ih1 ih2
    simp [processEntries, hover, hkept, ih1, hchild, ih2]
  · intro rawKey child rest path depth st out st1 hover hkept ih
    simp [processEntries, hover, hkept, ih]

/-- C9: the `preserveNull` flag has no observable effect — for every
input and every setting of the other options the pipeline output with
`preserveNull := b1` equals the output with `preserveNull := b2` — and
null/undefined nodes pass through unchanged for every option set. -/
theorem C9_preserveNull_no_effect :
    (∀ (input : List (String × JVal)) (o : SanitizeOptions) (b1 b2 : Bool),
      sanitizePipeline input { o with preserveNull := b1 }
        = sanitizePipeline input { o with preserveNull := b2 }) ∧
    (∀ (o : SanitizeOptions) (path : List String) (depth : Nat) (st : SanState),
      processNode o JVal.null path depth st = Except.ok (JVal.null, st)
        ∧ processNode o JVal.undef path depth st = Except.ok (JVal.undef, st)) := by
  constructor
  · intro input o b1 b2
    simp only [sanitizePipeline, detectAndReduce,
      processNode_pnIrrel o b1, processNode_pnIrrel o b2]
  · intro o path depth st
    constructor <;> simp [processNode]

/-! ## Paths into object trees (for the restoration-pass theorems) -/

/-- Follow a non-empty key path through nested plain objects. -/
def getPath : List (String × JVal) → List String → Option JVal
  | _, [] => none
  | m, [k] => getKey m k
  | m, k :: rest =>
      match getKey m k with
      | some (JVal.obj m2) => getPath m2 rest
      | _ => none

def isObjVal : JVal → Bool
  | JVal.obj _ => true
  | _ => false

def getPathJ : JVal → List String → Option JVal
  | JVal.obj m, path => getPath m path
  | _, _ => none

/-- All strings in the list are free of literal dots. -/
def dotFree (l : List String) : Bool := l.all (fun s => !strContains s '.')

mutual

/-- Well-formedness of the polluted tree's object spine as produced by
the engine: keys are dot-free, non-dangerous and unrepeated at each
level, recursively through object children. -/
def spineOkEntries : List (String × JVal) → Bool
  | [] => true
  | (k, v) :: rest =>
      !strContains k '.' && !isDangerousKey k && rest.all (fun p => p.1 != k)
        && spineOkVal v && spineOkEntries rest
termination_by structural kvs => kvs

def spineOkVal : JVal → Bool
  | JVal.obj m => spineOkEntries m
  | _ => true
termination_by structural v => v

end

lemma normalizeSeg_dotFree {s : String} (h : strContains s '.' = false) :
    normalizeSeg s = [s] := by
  simp [normalizeSeg, h]

lemma normalize_id {P : List String} (h : dotFree P = true) :
    (P.map normalizeSeg).flatten = P := by
  induction P with
  | nil => rfl
  | cons s rest ih =>
      simp only [dotFree, List.all_cons, Bool.and_eq_true, Bool.not_eq_true'] at h
      simp [normalizeSeg_dotFree h.1, ih (by simpa [dotFree] using h.2)]

lemma getKey_setKey_self (m : List (String × JVal)) (k : String) (v : JVal) :
    getKey (setKey m k v) k = some v := by
  induction m with
  | nil => simp [setKey, getKey]
  | cons p rest ih =>
      obtain ⟨k2, v2⟩ := p
      by_cases he : k2 = k
      · simp [setKey, he, getKey]
      · simp [setKey, he, getKey, ih]

lemma getKey_setKey_other {k2 k : String} (m : List (String × JVal)) (v : JVal)
    (h : k2 ≠ k) : getKey (setKey m k2 v) k = getKey m k := by
  induction m with
  | nil => simp [setKey, getKey, h]
  | cons p rest ih =>
      obtain ⟨k3, v3⟩ := p
      by_cases he : k3 = k2
      · subst he
        simp [setKey, getKey, h, ih]
      · simp only [setKey, if_neg he]
        by_cases he2 : k3 = k
        · simp [getKey, he2]
        · simp [getKey, he2, ih]

lemma getPath_nil_key (P : List String) : getPath [] P = none := by
  cases P with
  | nil => rfl
  | cons k rest =>
      cases rest with
      | nil => simp [getPath, getKey]
      | cons k2 rest2 => simp [getPath, getKey]

/-- Writing along a non-dangerous path makes the value readable there. -/
lemma getPath_setIn_self {P : List String} (m : List (String × JVal)) (v : JVal)
    (hne : P ≠ []) (hd : ∀ s ∈ P, isDangerousKey s = false) :
    getPath (setIn m P v) P = some v := by
  induction P generalizing m with
  | nil => exact absurd rfl hne
  | cons k rest ih =>
      have hk : isDangerousKey k = false := hd k (by simp)
      cases rest with
      | nil => simp [setIn, hk, getPath, getKey_setKey_self]
      | cons k2 rest2 =>
          have step : setIn m (k :: k2 :: rest2) v
              = setKey m k (JVal.obj (setIn
                  (match getKey m k with
                   | some (JVal.obj m2) => m2
                   | _ => []) (k2 :: rest2) v)) := by
            simp [setIn, hk]
          rw [step]
          simp only [getPath, getKey_setKey_self]
          exact ih _ (by simp) (fun s hs => hd s (by simp [hs]))

/-- Writing along a path leaves every prefix-incomparable path unread. -/
lemma getPath_setIn_other {P Q : List String} (m : List (String × JVal)) (w : JVal)
    (h1 : ¬ P <+: Q) (h2 : ¬ Q <+: P) :
    getPath (setIn m Q w) P = getPath m P := by
  induction Q generalizing m P with
  | nil => simp [setIn]
  | cons q qs ihq =>
      by_cases hdq : isDangerousKey q
      · cases qs with
        | nil => simp [setIn, hdq]
        | cons q2 qs2 => simp [setIn, hdq]
      · have hdq2 : isDangerousKey q = false := by simpa using hdq
        cases qs with
        | nil =>
            cases P with
            | nil => simp [getPath]
            | cons p ps =>
                by_cases hpq : p = q
                · subst hpq
                  cases ps with
                  | nil => exact absurd (List.prefix_refl _) h1
                  | cons p2 ps2 =>
                      exact absurd (List.cons_prefix_cons.mpr ⟨rfl, List.nil_prefix⟩) h2
                · have hqp : q ≠ p := fun he => hpq he.symm
                  cases ps with
                  | nil => simp [setIn, hdq2, getPath, getKey_setKey_other _ _ hqp]
                  | cons p2 ps2 => simp [setIn, hdq2, getPath, getKey_setKey_other _ _ hqp]
        | cons q2 qs2 =>
            have step : setIn m (q :: q2 :: qs2) w
                = setKey m q (JVal.obj (setIn
                    (match getKey m q with
                     | some (JVal.obj m2) => m2
                     | _ => []) (q2 :: qs2) w)) := by
              simp [setIn, hdq2]
            rw [step]
            cases P with
            | nil => simp [getPath]
            | cons p ps =>
                by_cases hpq : p = q
                · subst hpq
                  cases ps with
                  | nil =>
                      exact absurd (List.cons_prefix_cons.mpr ⟨rfl, List.nil_prefix⟩) h1
                  | cons p2 ps2 =>
                      have hps : ¬ (p2 :: ps2) <+: (q2 :: qs2) := by
                        intro hc
                        exact h1 (List.cons_prefix_cons.mpr ⟨rfl, hc⟩)
                      have hsp : ¬ (q2 :: qs2) <+: (p2 :: ps2) := by
                        intro hc
                        exact h2 (List.cons_prefix_cons.mpr ⟨rfl, hc⟩)
                      have hrec : ∀ m2, getPath (setIn m2 (q2 :: qs2) w) (p2 :: ps2)
                          = getPath m2 (p2 :: ps2) := fun m2 => ihq m2 hps hsp
                      simp only [getPath, getKey_setKey_self]
                      cases hg : getKey m p with
                      | none =>
                          simp only [hg]
                          rw [hrec [], getPath_nil_key]
                      | some u =>
                          cases u with
                          | obj m2 =>
                              simp only [hg]
                              exact hrec m2
                          | null =>
                              simp only [hg]
                              rw [hrec [], getPath_nil_key]
                          | undef =>
                              simp only [hg]
                              rw [hrec [], getPath_nil_key]
                          | bool b =>
                              simp only [hg]
                              rw [hrec [], getPath_nil_key]
                          | num n =>
                              simp only [hg]
                              rw [hrec [], getPath_nil_key]
                          | str s =>
                              simp only [hg]
                              rw [hrec [], getPath_nil_key]
                          | arr xs =>
                              simp only [hg]
                              rw [hrec [], getPath_nil_key]
                · have hqp : q ≠ p := fun he => hpq he.symm
                  cases ps with
                  | nil => simp [getPath, getKey_setKey_other _ _ hqp]
                  | cons p2 ps2 => simp [getPath, getKey_setKey_other _ _ hqp]

/-- Leaf view of a single value: the empty path is a leaf exactly when
the value is not a plain object; non-empty paths descend into objects. -/
def getPathE : JVal → List String → Option JVal
  | v, [] => if isObjVal v then none else some v
  | JVal.obj m, q :: qs => getPath m (q :: qs)
  | _, _ :: _ => none

lemma getPath_cons_self {k : String} {v : JVal} {rest : List (String × JVal)}
    {qs : List String} {v0 : JVal} (hno : isObjVal v0 = false) :
    getPath ((k, v) :: rest) (k :: qs) = some v0 ↔ getPathE v qs = some v0 := by
  cases qs with
  | nil =>
      have hstep : getPath ((k, v) :: rest) [k] = some v := by simp [getPath, getKey]
      rw [hstep]
      simp only [getPathE]
      constructor
      · intro h
        simp only [Option.some.injEq] at h
        subst h
        simp [hno]
      · intro h
        by_cases hv : isObjVal v
        · simp [hv] at h
        · simp only [hv, Bool.false_eq_true, if_false, Option.some.injEq] at h
          simp [h]
  | cons q2 qs2 =>
      cases v with
      | obj m => simp [getPath, getKey, getPathE]
      | null => simp [getPath, getKey, getPathE]
      | undef => simp [getPath, getKey, getPathE]
      | bool b => simp [getPath, getKey, getPathE]
      | num n => simp [getPath, getKey, getPathE]
      | str s => simp [getPath, getKey, getPathE]
      | arr xs => simp [getPath, getKey, getPathE]

lemma getPath_cons_ne {k q : String} {v : JVal} {rest : List (String × JVal)}
    {qs : List String} (h : q ≠ k) :
    getPath ((k, v) :: rest) (q :: qs) = getPath rest (q :: qs) := by
  have hk : k ≠ q := fun he => h he.symm
  cases qs with
  | nil => simp [getPath, getKey, hk]
  | cons q2 qs2 => simp [getPath, getKey, hk]

lemma getKey_none_of_all_ne {m : List (String × JVal)} {k : String}
    (h : ∀ p ∈ m, p.1 ≠ k) : getKey m k = none := by
  induction m with
  | nil => rfl
  | cons p rest ih =>
      obtain ⟨k2, v2⟩ := p
      have hne : k2 ≠ k := h (k2, v2) (by simp)
      simp [getKey, hne]
      exact ih (fun p hp => h p (by simp [hp]))

lemma getPath_none_of_all_ne {m : List (String × JVal)} {q : String} {qs : List String}
    (h : ∀ p ∈ m, p.1 ≠ q) : getPath m (q :: qs) = none := by
  have hk := getKey_none_of_all_ne h
  cases qs with
  | nil => simp [getPath, hk]
  | cons q2 qs2 => simp [getPath, hk]

lemma spine_getKey {m : List (String × JVal)} {k : String} {v : JVal}
    (hm : spineOkEntries m = true) (h : getKey m k = some v) :
    strContains k '.' = false ∧ isDangerousKey k = false ∧ spineOkVal v = true := by
  induction m with
  | nil => simp [getKey] at h
  | cons p rest ih =>
      obtain ⟨k2, v2⟩ := p
      simp only [spineOkEntries, Bool.and_eq_true, Bool.not_eq_true'] at hm
      by_cases he : k2 = k
      · simp only [getKey, if_pos he, Option.some.injEq] at h
        subst h
        subst he
        exact ⟨hm.1.1.1.1, hm.1.1.1.2, hm.1.2⟩
      · simp only [getKey, if_neg he] at h
        exact ih hm.2 h

lemma spine_getPath {m : List (String × JVal)} {P : List String} {v : JVal}
    (hm : spineOkEntries m = true) (h : getPath m P = some v) :
    (∀ s ∈ P, isDangerousKey s = false) ∧ dotFree P = true := by
  induction P generalizing m with
  | nil => simp [getPath] at h
  | cons k rest ih =>
      cases rest with
      | nil =>
          obtain ⟨h1, h2, h3⟩ := spine_getKey hm h
          constructor
          · intro s hs
            simp at hs
            subst hs
            exact h2
          · simp [dotFree, h1]
      | cons k2 rest2 =>
          simp only [getPath] at h
          cases hg : getKey m k with
          | none => rw [hg] at h; simp at h
          | some u =>
              rw [hg] at h
              cases u with
              | obj m2 =>
                  obtain ⟨h1, h2, h3⟩ := spine_getKey hm hg
                  have hm2 : spineOkEntries m2 = true := by simpa [spineOkVal] using h3
                  obtain ⟨r1, r2⟩ := ih hm2 h
                  constructor
                  · intro s hs
                    rcases List.mem_cons.mp hs with rfl | hs2
                    · exact h2
                    · exact r1 s hs2
                  · simp [dotFree, h1]
                    simpa [dotFree] using r2
              | null => simp at h
              | undef => simp at h
              | bool b => simp at h
              | num n => simp at h
              | str s => simp at h
              | arr xs => simp at h

lemma getPath_leaf_no_extension {m : List (String × JVal)} {P : List String} {v : JVal}
    (h : getPath m P = some v) (hv : isObjVal v = false) :
    ∀ Q, Q ≠ [] → getPath m (P ++ Q) = none := by
  induction P generalizing m with
  | nil => simp [getPath] at h
  | cons k rest ih =>
      intro Q hQ
      cases rest with
      | nil =>
          cases Q with
          | nil => exact absurd rfl hQ
          | cons q qs =>
              have hk : getKey m k = some v := h
              simp only [List.cons_append, List.nil_append, getPath, hk]
              cases v with
              | obj m2 => simp [isObjVal] at hv
              | null => rfl
              | undef => rfl
              | bool b => rfl
              | num n => rfl
              | str s => rfl
              | arr xs => rfl
      | cons k2 rest2 =>
          simp only [getPath] at h
          cases hg : getKey m k with
          | none => rw [hg] at h; simp at h
          | some u =>
              rw [hg] at h
              cases u with
              | obj m2 =>
                  have := ih h Q hQ
                  simpa [getPath, hg] using this
              | null => simp at h
              | undef => simp at h
              | bool b => simp at h
              | num n => simp at h
              | str s => simp at h
              | arr xs => simp at h

lemma leaf_incomparable {m : List (String × JVal)} {P Q : List String} {v w : JVal}
    (hP : getPath m P = some v) (hvP : isObjVal v = false)
    (hQ : getPath m Q = some w) (hwQ : isObjVal w = false)
    (hne : P ≠ Q) : ¬ P <+: Q ∧ ¬ Q <+: P := by
  constructor
  · intro hc
    obtain ⟨R, rfl⟩ := hc
    have hR : R ≠ [] := by
      intro hr
      subst hr
      simp at hne
    rw [getPath_leaf_no_extension hP hvP R hR] at hQ
    cases hQ
  · intro hc
    obtain ⟨R, rfl⟩ := hc
    have hR : R ≠ [] := by
      intro hr
      subst hr
      simp at hne
    rw [getPath_leaf_no_extension hQ hwQ R hR] at hP
    cases hP

lemma getPath_cons_none {k : String} {w : JVal} {r : List (String × JVal)}
    {qs : List String} (h : getPathE w qs = none) (hq : qs ≠ []) :
    getPath ((k, w) :: r) (k :: qs) = none := by
  cases qs with
  | nil => exact absurd rfl hq
  | cons q2 qs2 =>
      cases w with
      | obj m =>
          simp only [getPathE] at h
          simp [getPath, getKey, h]
      | null => simp [getPath, getKey]
      | undef => simp [getPath, getKey]
      | bool b => simp [getPath, getKey]
      | num n => simp [getPath, getKey]
      | str s => simp [getPath, getKey]
      | arr xs => simp [getPath, getKey]

lemma getPath_some_nonempty {m : List (String × JVal)} {Q : List String} {v : JVal}
    (h : getPath m Q = some v) : Q ≠ [] := by
  intro he
  subst he
  simp [getPath] at h

lemma getPathE_obj_nonempty {m : List (String × JVal)} {Q : List String} {v : JVal}
    (h : getPathE (JVal.obj m) Q = some v) : Q ≠ [] := by
  intro he
  subst he
  simp [getPathE, isObjVal] at h

lemma dotFree_append {a b : List String} :
    dotFree (a ++ b) = (dotFree a && dotFree b) := by
  simp [dotFree, List.all_append]

lemma getPathE_obj {m : List (String × JVal)} {Q : List String} (hQ : Q ≠ []) :
    getPathE (JVal.obj m) Q = getPath m Q := by
  cases Q with
  | nil => exact absurd rfl hQ
  | cons q qs => rfl

mutual

lemma mwWalk_facts (isW : List String → Bool) :
    ∀ (node : List (String × JVal)) (base : List String),
      spineOkEntries node = true → dotFree base = true →
      (∀ pv ∈ (mwWalk isW node base).2,
        ∃ Q v0, getPath node Q = some v0 ∧ isObjVal v0 = false
          ∧ isW (base ++ Q) = true ∧ pv = (base ++ Q, v0))
      ∧ (∀ Q v0, getPath node Q = some v0 → isObjVal v0 = false →
          (isW (base ++ Q) = true →
            (base ++ Q, v0) ∈ (mwWalk isW node base).2
              ∧ getPath (mwWalk isW node base).1 Q = none)
          ∧ (isW (base ++ Q) = false →
            getPath (mwWalk isW node base).1 Q = some v0))
      ∧ (∀ p ∈ (mwWalk isW node base).1, ∃ p2 ∈ node, p2.1 = p.1)
  | [], base, hs, hb => by
      refine ⟨?_, ?_, ?_⟩
      · intro pv hpv
        simp [mwWalk] at hpv
      · intro Q v0 hQ
        rw [getPath_nil_key] at hQ
        cases hQ
      · intro p hp
        simp [mwWalk] at hp
  | (k, v) :: rest, base, hs, hb => by
      simp only [spineOkEntries, Bool.and_eq_true, Bool.not_eq_true'] at hs
      obtain ⟨⟨⟨⟨hkdot, hkdang⟩, hknodup⟩, hv⟩, hrest⟩ := hs
      have hkne : ∀ p ∈ rest, p.1 ≠ k := by
        intro p hp
        have := List.all_eq_true.mp hknodup p hp
        simpa using this
      have hcp : dotFree (base ++ [k]) = true := by
        rw [dotFree_append, hb]
        simp [dotFree, hkdot]
      obtain ⟨WA, WB, WK⟩ := mwWalk_facts isW rest base hrest hb
      obtain ⟨EA, EB, EK⟩ := mwEntry_facts isW k v (base ++ [k]) hv hcp
      have hacts : (mwWalk isW ((k, v) :: rest) base).2
          = (mwEntry isW k v (base ++ [k])).2 ++ (mwWalk isW rest base).2 := by
        simp [mwWalk]
      have hpruned : (mwWalk isW ((k, v) :: rest) base).1
          = (match (mwEntry isW k v (base ++ [k])).1 with
             | none => (mwWalk isW rest base).1
             | some e => e :: (mwWalk isW rest base).1) := by
        simp [mwWalk]
      refine ⟨?_, ?_, ?_⟩
      · intro pv hpv
        rw [hacts] at hpv
        rcases List.mem_append.mp hpv with hpv1 | hpv2
        · obtain ⟨Q, v0, h1, h2, h3, h4⟩ := EA pv hpv1
          refine ⟨k :: Q, v0, ?_, h2, ?_, ?_⟩
          · exact (getPath_cons_self h2).mpr h1
          · rw [List.append_assoc, List.singleton_append] at h3
            exact h3
          · rw [h4, List.append_assoc, List.singleton_append]
        · obtain ⟨Q, v0, h1, h2, h3, h4⟩ := WA pv hpv2
          obtain ⟨q, qs, rfl⟩ : ∃ q qs, Q = q :: qs := by
            cases Q with
            | nil => exact absurd h1 (by simp [getPath])
            | cons q qs => exact ⟨q, qs, rfl⟩
          have hqk : q ≠ k := by
            intro he
            subst he
            rw [getPath_none_of_all_ne hkne] at h1
            cases h1
          refine ⟨q :: qs, v0, ?_, h2, h3, h4⟩
          rw [getPath_cons_ne hqk]
          exact h1
      · intro Q v0 hQ hno
        obtain ⟨q, qs, rfl⟩ : ∃ q qs, Q = q :: qs := by
          cases Q with
          | nil => exact absurd hQ (by simp [getPath])
          | cons q qs => exact ⟨q, qs, rfl⟩
        by_cases hqk : q = k
        · subst hqk
          have hQE : getPathE v qs = some v0 := (getPath_cons_self hno).mp hQ
          have hrw : base ++ q :: qs = (base ++ [q]) ++ qs := by
            simp
          constructor
          · intro hw
            rw [hrw] at hw
            obtain ⟨hmem, hnone⟩ := (EB qs v0 hQE hno).1 hw
            constructor
            · rw [hacts, hrw]
              exact List.mem_append.mpr (Or.inl hmem)
            · rw [hpruned]
              cases he : (mwEntry isW q v (base ++ [q])).1 with
              | none =>
                  exact getPath_none_of_all_ne (fun p hp => by
                    obtain ⟨p2, hp2, he2⟩ := WK p hp
                    exact he2 ▸ hkne p2 hp2)
              | some e =>
                  obtain ⟨hE, hQne⟩ := hnone e he
                  have hek : e.1 = q := EK e he
                  obtain ⟨e1, e2⟩ := e
                  simp only at hek
                  subst hek
                  exact getPath_cons_none hE hQne
          · intro hw
            rw [hrw] at hw
            obtain ⟨e, he, hek, hE⟩ := (EB qs v0 hQE hno).2 hw
            rw [hpruned, he]
            obtain ⟨e1, e2⟩ := e
            simp only at hek
            subst hek
            exact (getPath_cons_self hno).mpr hE
        · have hQ2 : getPath rest (q :: qs) = some v0 := by
            rw [getPath_cons_ne hqk] at hQ
            exact hQ
          constructor
          · intro hw
            obtain ⟨hmem, hnone⟩ := (WB (q :: qs) v0 hQ2 hno).1 hw
            constructor
            · rw [hacts]
              exact List.mem_append.mpr (Or.inr hmem)
            · rw [hpruned]
              cases he : (mwEntry isW k v (base ++ [k])).1 with
              | none => exact hnone
              | some e =>
                  have hek : e.1 = k := EK e he
                  obtain ⟨e1, e2⟩ := e
                  simp only at hek
                  subst hek
                  show getPath ((e1, e2) :: (mwWalk isW rest base).1) (q :: qs) = none
                  rw [getPath_cons_ne hqk]
                  exact hnone
          · intro hw
            have hsome := (WB (q :: qs) v0 hQ2 hno).2 hw
            rw [hpruned]
            cases he : (mwEntry isW k v (base ++ [k])).1 with
            | none => exact hsome
            | some e =>
                have hek : e.1 = k := EK e he
                obtain ⟨e1, e2⟩ := e
                simp only at hek
                subst hek
                show getPath ((e1, e2) :: (mwWalk isW rest base).1) (q :: qs) = some v0
                rw [getPath_cons_ne hqk]
                exact hsome
      · intro p hp
        rw [hpruned] at hp
        cases he : (mwEntry isW k v (base ++ [k])).1 with
        | none =>
            rw [he] at hp
            obtain ⟨p2, hp2, he2⟩ := WK p hp
            exact ⟨p2, by simp [hp2], he2⟩
        | some e =>
            rw [he] at hp
            rcases List.mem_cons.mp hp with rfl | hp2
            · exact ⟨(k, v), by simp, (EK p he).symm ▸ rfl⟩
            · obtain ⟨p2, hp2b, he2⟩ := WK p hp2
              exact ⟨p2, by simp [hp2b], he2⟩

lemma mwEntry_facts (isW : List String → Bool) (k : String) :
    ∀ (v : JVal) (curPath : List String),
      spineOkVal v = true → dotFree curPath = true →
      (∀ pv ∈ (mwEntry isW k v curPath).2,
        ∃ Q v0, getPathE v Q = some v0 ∧ isObjVal v0 = false
          ∧ isW (curPath ++ Q) = true ∧ pv = (curPath ++ Q, v0))
      ∧ (∀ Q v0, getPathE v Q = some v0 → isObjVal v0 = false →
          (isW (curPath ++ Q) = true →
            (curPath ++ Q, v0) ∈ (mwEntry isW k v curPath).2
              ∧ ∀ e, (mwEntry isW k v curPath).1 = some e →
                  getPathE e.2 Q = none ∧ Q ≠ [])
          ∧ (isW (curPath ++ Q) = false →
            ∃ e, (mwEntry isW k v curPath).1 = some e ∧ e.1 = k
              ∧ getPathE e.2 Q = some v0))
      ∧ (∀ e, (mwEntry isW k v curPath).1 = some e → e.1 = k)
  | JVal.obj m, curPath, hv, hcp => by
      have hm : spineOkEntries m = true := by simpa [spineOkVal] using hv
      obtain ⟨WA, WB, WK⟩ := mwWalk_facts isW m curPath hm hcp
      refine ⟨?_, ?_, ?_⟩
      · intro pv hpv
        have hpv2 : pv ∈ (mwWalk isW m curPath).2 := by
          simp only [mwEntry] at hpv
          by_cases he : (mwWalk isW m curPath).1.isEmpty <;> simpa [he] using hpv
        obtain ⟨Q, v0, h1, h2, h3, h4⟩ := WA pv hpv2
        refine ⟨Q, v0, ?_, h2, h3, h4⟩
        rw [getPathE_obj (getPath_some_nonempty h1)]
        exact h1
      · intro Q v0 hQ hno
        have hQne : Q ≠ [] := getPathE_obj_nonempty hQ
        rw [getPathE_obj hQne] at hQ
        constructor
        · intro hw
          obtain ⟨hmem, hnone⟩ := (WB Q v0 hQ hno).1 hw
          constructor
          · simp only [mwEntry]
            by_cases he : (mwWalk isW m curPath).1.isEmpty <;> simpa [he] using hmem
          · intro e he
            simp only [mwEntry] at he
            by_cases hemp : (mwWalk isW m curPath).1.isEmpty
            · simp [hemp] at he
            · simp only [hemp, Bool.false_eq_true, if_false, Option.some.injEq] at he
              refine ⟨?_, hQne⟩
              rw [← he]
              rw [getPathE_obj hQne]
              exact hnone
        · intro hw
          have hsome := (WB Q v0 hQ hno).2 hw
          have hemp : (mwWalk isW m curPath).1.isEmpty = false := by
            cases hex : (mwWalk isW m curPath).1 with
            | nil =>
                rw [hex] at hsome
                rw [getPath_nil_key] at hsome
                cases hsome
            | cons a t => simp [hex]
          refine ⟨(k, JVal.obj (mwWalk isW m curPath).1), ?_, rfl, ?_⟩
          · simp [mwEntry, hemp]
          · rw [getPathE_obj hQne]
            exact hsome
      · intro e he
        simp only [mwEntry] at he
        by_cases hemp : (mwWalk isW m curPath).1.isEmpty
        · simp [hemp] at he
        · simp only [hemp, Bool.false_eq_true, if_false, Option.some.injEq] at he
          simp [← he]
  | JVal.null, curPath, hv, hcp => by
      have hnorm : (curPath.map normalizeSeg).flatten = curPath := normalize_id hcp
      refine ⟨?_, ?_, ?_⟩
      · intro pv hpv
        simp only [mwEntry] at hpv
        by_cases hw : isW curPath
        · simp only [hw, if_pos, List.mem_singleton] at hpv
          refine ⟨[], JVal.null, ?_, ?_, ?_, ?_⟩
          · simp [getPathE, isObjVal]
          · simp [isObjVal]
          · simpa using hw
          · simp [hpv, hnorm]
        · simp [hw] at hpv
      · intro Q v0 hQ hno
        cases Q with
        | cons q qs => simp [getPathE] at hQ
        | nil =>
            simp only [getPathE, isObjVal, Bool.false_eq_true, if_false,
              Option.some.injEq] at hQ
            subst hQ
            constructor
            · intro hw
              have hw2 : isW curPath = true := by simpa using hw
              constructor
              · simp [mwEntry, hw2, hnorm]
              · intro e he
                simp [mwEntry, hw2] at he
            · intro hw
              have hw2 : isW curPath = false := by simpa using hw
              refine ⟨(k, JVal.null), ?_, rfl, ?_⟩
              · simp [mwEntry, hw2]
              · simp [getPathE, isObjVal]
      · intro e he
        simp only [mwEntry] at he
        by_cases hw : isW curPath
        · simp [hw] at he
        · simp [hw] at he
          simp [← he]
  | JVal.undef, curPath, hv, hcp => by
      have hnorm : (curPath.map normalizeSeg).flatten = curPath := normalize_id hcp
      refine ⟨?_, ?_, ?_⟩
      · intro pv hpv
        simp only [mwEntry] at hpv
        by_cases hw : isW curPath
        · simp only [hw, if_pos, List.mem_singleton] at hpv
          refine ⟨[], JVal.undef, ?_, ?_, ?_, ?_⟩
          · simp [getPathE, isObjVal]
          · simp [isObjVal]
          · simpa using hw
          · simp [hpv, hnorm]
        · simp [hw] at hpv
      · intro Q v0 hQ hno
        cases Q with
        | cons q qs => simp [getPathE] at hQ
        | nil =>
            simp only [getPathE, isObjVal, Bool.false_eq_true, if_false,
              Option.some.injEq] at hQ
            subst hQ
            constructor
            · intro hw
              have hw2 : isW curPath = true := by simpa using hw
              constructor
              · simp [mwEntry, hw2, hnorm]
              · intro e he
                simp [mwEntry, hw2] at he
            · intro hw
              have hw2 : isW curPath = false := by simpa using hw
              refine ⟨(k, JVal.undef), ?_, rfl, ?_⟩
              · simp [mwEntry, hw2]
              · simp [getPathE, isObjVal]
      · intro e he
        simp only [mwEntry] at he
        by_cases hw : isW curPath
        · simp [hw] at he
        · simp [hw] at he
          simp [← he]
  | JVal.bool b, curPath, hv, hcp => by
      have hnorm : (curPath.map normalizeSeg).flatten = curPath := normalize_id hcp
      refine ⟨?_, ?_, ?_⟩
      · intro pv hpv
        simp only [mwEntry] at hpv
        by_cases hw : isW curPath
        · simp only [hw, if_pos, List.mem_singleton] at hpv
          refine ⟨[], JVal.bool b, ?_, ?_, ?_, ?_⟩
          · simp [getPathE, isObjVal]
          · simp [isObjVal]
          · simpa using hw
          · simp [hpv, hnorm]
        · simp [hw] at hpv
      · intro Q v0 hQ hno
        cases Q with
        | cons q qs => simp [getPathE] at hQ
        | nil =>
            simp only [getPathE, isObjVal, Bool.false_eq_true, if_false,
              Option.some.injEq] at hQ
            subst hQ
            constructor
            · intro hw
              have hw2 : isW curPath = true := by simpa using hw
              constructor
              · simp [mwEntry, hw2, hnorm]
              · intro e he
                simp [mwEntry, hw2] at he
            · intro hw
              have hw2 : isW curPath = false := by simpa using hw
              refine ⟨(k, JVal.bool b), ?_, rfl, ?_⟩
              · simp [mwEntry, hw2]
              · simp [getPathE, isObjVal]
      · intro e he
        simp only [mwEntry] at he
        by_cases hw : isW curPath
        · simp [hw] at he
        · simp [hw] at he
          simp [← he]
  | JVal.num n, curPath, hv, hcp => by
      have hnorm : (curPath.map normalizeSeg).flatten = curPath := normalize_id hcp
      refine ⟨?_, ?_, ?_⟩
      · intro pv hpv
        simp only [mwEntry] at hpv
        by_cases hw : isW curPath
        · simp only [hw, if_pos, List.mem_singleton] at hpv
          refine ⟨[], JVal.num n, ?_, ?_, ?_, ?_⟩
          · simp [getPathE, isObjVal]
          · simp [isObjVal]
          · simpa using hw
          · simp [hpv, hnorm]
        · simp [hw] at hpv
      · intro Q v0 hQ hno
        cases Q with
        | cons q qs => simp [getPathE] at hQ
        | nil =>
            simp only [getPathE, isObjVal, Bool.false_eq_true, if_false,
              Option.some.injEq] at hQ
            subst hQ
            constructor
            · intro hw
              have hw2 : isW curPath = true := by simpa using hw
              constructor
              · simp [mwEntry, hw2, hnorm]
              · intro e he
                simp [mwEntry, hw2] at he
            · intro hw
              have hw2 : isW curPath = false := by simpa using hw
              refine ⟨(k, JVal.num n), ?_, rfl, ?_⟩
              · simp [mwEntry, hw2]
              · simp [getPathE, isObjVal]
      · intro e he
        simp only [mwEntry] at he
        by_cases hw : isW curPath
        · simp [hw] at he
        · simp [hw] at he
          simp [← he]
  | JVal.str s, curPath, hv, hcp => by
      have hnorm : (curPath.map normalizeSeg).flatten = curPath := normalize_id hcp
      refine ⟨?_, ?_, ?_⟩
      · intro pv hpv
        simp only [mwEntry] at hpv
        by_cases hw : isW curPath
        · simp only [hw, if_pos, List.mem_singleton] at hpv
          refine ⟨[], JVal.str s, ?_, ?_, ?_, ?_⟩
          · simp [getPathE, isObjVal]
          · simp [isObjVal]
          · simpa using hw
          · simp [hpv, hnorm]
        · simp [hw] at hpv
      · intro Q v0 hQ hno
        cases Q with
        | cons q qs => simp [getPathE] at hQ
        | nil =>
            simp only [getPathE, isObjVal, Bool.false_eq_true, if_false,
              Option.some.injEq] at hQ
            subst hQ
            constructor
            · intro hw
              have hw2 : isW curPath = true := by simpa using hw
              constructor
              · simp [mwEntry, hw2, hnorm]
              · intro e he
                simp [mwEntry, hw2] at he
            · intro hw
              have hw2 : isW curPath = false := by simpa using hw
              refine ⟨(k, JVal.str s), ?_, rfl, ?_⟩
              · simp [mwEntry, hw2]
              · simp [getPathE, isObjVal]
      · intro e he
        simp only [mwEntry] at he
        by_cases hw : isW curPath
        · simp [hw] at he
        · simp [hw] at he
          simp [← he]
  | JVal.arr xs, curPath, hv, hcp => by
      have hnorm : (curPath.map normalizeSeg).flatten = curPath := normalize_id hcp
      refine ⟨?_, ?_, ?_⟩
      · intro pv hpv
        simp only [mwEntry] at hpv
        by_cases hw : isW curPath
        · simp only [hw, if_pos, List.mem_singleton] at hpv
          refine ⟨[], JVal.arr xs, ?_, ?_, ?_, ?_⟩
          · simp [getPathE, isObjVal]
          · simp [isObjVal]
          · simpa using hw
          · simp [hpv, hnorm]
        · simp [hw] at hpv
      · intro Q v0 hQ hno
        cases Q with
        | cons q qs => simp [getPathE] at hQ
        | nil =>
            simp only [getPathE, isObjVal, Bool.false_eq_true, if_false,
              Option.some.injEq] at hQ
            subst hQ
            constructor
            · intro hw
              have hw2 : isW curPath = true := by simpa using hw
              constructor
              · simp [mwEntry, hw2, hnorm]
              · intro e he
                simp [mwEntry, hw2] at he
            · intro hw
              have hw2 : isW curPath = false := by simpa using hw
              refine ⟨(k, JVal.arr xs), ?_, rfl, ?_⟩
              · simp [mwEntry, hw2]
              · simp [getPathE, isObjVal]
      · intro e he
        simp only [mwEntry] at he
        by_cases hw : isW curPath
        · simp [hw] at he
        · simp [hw] at he
          simp [← he]

end

lemma applyRestores_preserve {P : List String} {v : JVal} :
    ∀ (acts : List (List String × JVal)) (c : JVal),
      (∀ pv ∈ acts, (pv.1 = P ∧ pv.2 = v) ∨ (¬ pv.1 <+: P ∧ ¬ P <+: pv.1)) →
      P ≠ [] → (∀ s ∈ P, isDangerousKey s = false) →
      getPathJ c P = some v → getPathJ (applyRestores c acts) P = some v
  | [], c, _, _, _, hc => by simpa [applyRestores] using hc
  | (R, w) :: rest, c, hacts, hne, hdang, hc => by
      cases c with
      | obj m =>
          have hrest : ∀ pv ∈ rest, (pv.1 = P ∧ pv.2 = v) ∨ (¬ pv.1 <+: P ∧ ¬ P <+: pv.1) :=
            fun pv hpv => hacts pv (by simp [hpv])
          have hstep : getPathJ (JVal.obj (setIn m R w)) P = some v := by
            rcases hacts (R, w) (by simp) with ⟨h1, h2⟩ | ⟨h1, h2⟩
            · have h1' : R = P := h1
              have h2' : w = v := h2
              rw [h1', h2']
              simpa [getPathJ] using getPath_setIn_self m v hne hdang
            · simp only [getPathJ] at hc ⊢
              rw [getPath_setIn_other m w h2 h1]
              exact hc
          show getPathJ (applyRestores (JVal.obj (setIn m R w)) rest) P = some v
          exact applyRestores_preserve rest _ hrest hne hdang hstep
      | null => simp [getPathJ] at hc
      | undef => simp [getPathJ] at hc
      | bool b => simp [getPathJ] at hc
      | num n => simp [getPathJ] at hc
      | str s => simp [getPathJ] at hc
      | arr xs => simp [getPathJ] at hc

lemma applyRestores_write {P : List String} {v : JVal} :
    ∀ (acts : List (List String × JVal)) (c0 : List (String × JVal)),
      (P, v) ∈ acts →
      (∀ pv ∈ acts, (pv.1 = P ∧ pv.2 = v) ∨ (¬ pv.1 <+: P ∧ ¬ P <+: pv.1)) →
      P ≠ [] → (∀ s ∈ P, isDangerousKey s = false) →
      getPathJ (applyRestores (JVal.obj c0) acts) P = some v
  | [], c0, hmem, _, _, _ => by simp at hmem
  | (R, w) :: rest, c0, hmem, hacts, hne, hdang => by
      rcases hacts (R, w) (by simp) with ⟨h1, h2⟩ | ⟨h1, h2⟩
      · have h1' : R = P := h1
        have h2' : w = v := h2
        have hstep : getPathJ (JVal.obj (setIn c0 R w)) P = some v := by
          rw [h1', h2']
          simpa [getPathJ] using getPath_setIn_self c0 v hne hdang
        have hrest : ∀ pv ∈ rest, (pv.1 = P ∧ pv.2 = v) ∨ (¬ pv.1 <+: P ∧ ¬ P <+: pv.1) :=
          fun pv hpv => hacts pv (by simp [hpv])
        show getPathJ (applyRestores (JVal.obj (setIn c0 R w)) rest) P = some v
        exact applyRestores_preserve rest _ hrest hne hdang hstep
      · have hmem2 : (P, v) ∈ rest := by
          rcases List.mem_cons.mp hmem with he | he
          · exfalso
            have hRP : R = P := congrArg Prod.fst he.symm
            exact h1 (hRP ▸ List.prefix_refl R)
          · exact he
        have hrest : ∀ pv ∈ rest, (pv.1 = P ∧ pv.2 = v) ∨ (¬ pv.1 <+: P ∧ ¬ P <+: pv.1) :=
          fun pv hpv => hacts pv (by simp [hpv])
        show getPathJ (applyRestores (JVal.obj (setIn c0 R w)) rest) P = some v
        exact applyRestores_write rest _ hmem2 hrest hne hdang

/-- C2 (amended): for every leaf path `P` of the recorded polluted tree
(as the engine produces it: dot-free, non-dangerous, unrepeated spine
keys), if `P` is whitelisted then the restoration pass writes the
recorded leaf value (the truncated, guard-cloned copy of the original
array — not necessarily the original array unchanged) into the cleaned
tree at `P` and removes `P` from the polluted tree, while every
non-whitelisted leaf remains in the polluted tree with its value
unchanged. -/
theorem C2_whitelist_restoration (wl : List String)
    (cleanedKvs polluted : List (String × JVal)) (P : List String) (v : JVal)
    (hsp : spineOkEntries polluted = true)
    (hleaf : getPath polluted P = some v)
    (hno : isObjVal v = false)
    (hw : isWhitelistedPath wl P = true) :
    getPathJ (moveWhitelistedFromPolluted (isWhitelistedPath wl)
        (JVal.obj cleanedKvs) polluted).1 P = some v
    ∧ getPath (moveWhitelistedFromPolluted (isWhitelistedPath wl)
        (JVal.obj cleanedKvs) polluted).2 P = none
    ∧ (∀ Q w, getPath polluted Q = some w → isObjVal w = false →
        isWhitelistedPath wl Q = false →
        getPath (moveWhitelistedFromPolluted (isWhitelistedPath wl)
          (JVal.obj cleanedKvs) polluted).2 Q = some w) := by
  obtain ⟨WA, WB, WK⟩ := mwWalk_facts (isWhitelistedPath wl) polluted [] hsp (by simp [dotFree])
  have hPne : P ≠ [] := getPath_some_nonempty hleaf
  have hPdang : ∀ s ∈ P, isDangerousKey s = false := (spine_getPath hsp hleaf).1
  have hWB := (WB P v hleaf hno).1 (by simpa using hw)
  have hmem : (P, v) ∈ (mwWalk (isWhitelistedPath wl) polluted []).2 := by
    simpa using hWB.1
  have hdisj : ∀ pv ∈ (mwWalk (isWhitelistedPath wl) polluted []).2,
      (pv.1 = P ∧ pv.2 = v) ∨ (¬ pv.1 <+: P ∧ ¬ P <+: pv.1) := by
    intro pv hpv
    obtain ⟨Q, v0, h1, h2, h3, h4⟩ := WA pv hpv
    simp only [List.nil_append] at h4
    by_cases hQP : Q = P
    · subst hQP
      rw [hleaf] at h1
      simp only [Option.some.injEq] at h1
      exact Or.inl (by simp [h4, h1])
    · obtain ⟨hi1, hi2⟩ := leaf_incomparable h1 h2 hleaf hno hQP
      exact Or.inr (by simp [h4, hi1, hi2])
  refine ⟨?_, ?_, ?_⟩
  · show getPathJ (applyRestores (JVal.obj cleanedKvs)
        (mwWalk (isWhitelistedPath wl) polluted []).2) P = some v
    exact applyRestores_write _ cleanedKvs hmem hdisj hPne hPdang
  · exact hWB.2
  · intro Q w hQ hnoW hnw
    exact (WB Q w hQ hnoW).2 (by simpa using hnw)

/-- Witness for C2 at the spec's scenario-3 shapes. -/
theorem C2_witness :
    spineOkEntries [("user", JVal.obj
        [("tags", JVal.arr [JVal.str "1", JVal.str "2"]),
         ("name", JVal.arr [JVal.str "Ann", JVal.str "Bob"])])] = true ∧
    getPath [("user", JVal.obj
        [("tags", JVal.arr [JVal.str "1", JVal.str "2"]),
         ("name", JVal.arr [JVal.str "Ann", JVal.str "Bob"])])] ["user", "tags"]
      = some (JVal.arr [JVal.str "1", JVal.str "2"]) ∧
    isWhitelistedPath ["user.tags"] ["user", "tags"] = true ∧
    getPathJ (moveWhitelistedFromPolluted (isWhitelistedPath ["user.tags"])
        (JVal.obj [("user", JVal.obj [("tags", JVal.str "t"), ("name", JVal.str "n")])])
        [("user", JVal.obj
          [("tags", JVal.arr [JVal.str "1", JVal.str "2"]),
           ("name", JVal.arr [JVal.str "Ann", JVal.str "Bob"])])]).1 ["user", "tags"]
      = some (JVal.arr [JVal.str "1", JVal.str "2"]) := by
  refine ⟨rfl, rfl, rfl, ?_⟩
  exact (C2_whitelist_restoration ["user.tags"]
    [("user", JVal.obj [("tags", JVal.str "t"), ("name", JVal.str "n")])]
    [("user", JVal.obj
      [("tags", JVal.arr [JVal.str "1", JVal.str "2"]),
       ("name", JVal.arr [JVal.str "Ann", JVal.str "Bob"])])]
    ["user", "tags"] (JVal.arr [JVal.str "1", JVal.str "2"])
    rfl rfl rfl rfl).1

/-! ## C8: plain trees and malformed-key removal -/

/-- A key that path expansion stores verbatim: no `'.'` and no `'['`. -/
def plainKey (k : String) : Bool := !strContains k '.' && !strContains k '['

mutual

/-- Duplicate-free, array-free trees whose keys carry no path syntax. -/
def plainVal : JVal → Bool
  | JVal.obj kvs => plainEntries kvs
  | JVal.arr _ => false
  | _ => true
termination_by structural v => v

def plainEntries : List (String × JVal) → Bool
  | [] => true
  | (k, v) :: rest =>
      plainKey k && !(rest.map Prod.fst).contains k && plainVal v && plainEntries rest
termination_by structural kvs => kvs

end

mutual

/-- The claim's "`x` modulo removal of malformed keys": recursively drop
every key the guard rejects. -/
def stripBadVal (maxKeyLength : Nat) : JVal → JVal
  | JVal.obj kvs => JVal.obj (stripBadEntries maxKeyLength kvs)
  | v => v
termination_by structural v => v

def stripBadEntries (maxKeyLength : Nat) : List (String × JVal) → List (String × JVal)
  | [] => []
  | (k, v) :: rest =>
      if keyKept k maxKeyLength then
        (k, stripBadVal maxKeyLength v) :: stripBadEntries maxKeyLength rest
      else stripBadEntries maxKeyLength rest
termination_by structural kvs => kvs

end

mutual

/-- Every object key at every level passes the guard. -/
def allKeptVal (maxKeyLength : Nat) : JVal → Bool
  | JVal.obj kvs => allKeptEntries maxKeyLength kvs
  | _ => true
termination_by structural v => v

def allKeptEntries (maxKeyLength : Nat) : List (String × JVal) → Bool
  | [] => true
  | (k, v) :: rest =>
      keyKept k maxKeyLength && allKeptVal maxKeyLength v && allKeptEntries maxKeyLength rest
termination_by structural kvs => kvs

end

lemma setKey_append {kvs : List (String × JVal)} {k : String} (v : JVal)
    (h : (kvs.map Prod.fst).contains k = false) : setKey kvs k v = kvs ++ [(k, v)] := by
  induction kvs with
  | nil => rfl
  | cons p rest ih =>
      obtain ⟨k2, v2⟩ := p
      rw [List.map_cons, List.contains_cons] at h
      have hne : (k == k2) = false := by
        cases hb : k == k2
        · rfl
        · rw [hb] at h
          simp at h
      have hrest : (rest.map Prod.fst).contains k = false := by
        cases hb : (rest.map Prod.fst).contains k
        · rfl
        · rw [hb] at h
          simp at h
      have hprop : ¬ k2 = k := by
        intro he
        subst he
        simp at hne
      simp [setKey, hprop, ih hrest]

lemma stripBad_keys_sub {n : Nat} {kvs : List (String × JVal)} {k : String}
    (h : ((stripBadEntries n kvs).map Prod.fst).contains k = true) :
    (kvs.map Prod.fst).contains k = true := by
  induction kvs with
  | nil => simpa [stripBadEntries] using h
  | cons p rest ih =>
      obtain ⟨k2, v2⟩ := p
      by_cases hk : keyKept k2 n
      · rw [stripBadEntries, if_pos hk, List.map_cons, List.contains_cons] at h
        rw [List.map_cons, List.contains_cons]
        rcases Bool.or_eq_true_iff.mp h with h1 | h1
        · rw [h1, Bool.true_or]
        · rw [ih h1, Bool.or_true]
      · rw [stripBadEntries, if_neg hk] at h
        rw [List.map_cons, List.contains_cons, ih h, Bool.or_true]

mutual

lemma plain_stripBadVal (n : Nat) : ∀ v : JVal, plainVal v = true →
    plainVal (stripBadVal n v) = true ∧ allKeptVal n (stripBadVal n v) = true
  | JVal.null, _ => ⟨rfl, rfl⟩
  | JVal.undef, _ => ⟨rfl, rfl⟩
  | JVal.bool _, _ => ⟨rfl, rfl⟩
  | JVal.num _, _ => ⟨rfl, rfl⟩
  | JVal.str _, _ => ⟨rfl, rfl⟩
  | JVal.arr _, h => by simp [plainVal] at h
  | JVal.obj kvs, h => by
      have hh := plain_stripBadEntries n kvs (by simpa [plainVal] using h)
      simpa [stripBadVal, plainVal, allKeptVal] using hh

lemma plain_stripBadEntries (n : Nat) : ∀ kvs : List (String × JVal),
    plainEntries kvs = true →
    plainEntries (stripBadEntries n kvs) = true ∧ allKeptEntries n (stripBadEntries n kvs) = true
  | [], _ => ⟨rfl, rfl⟩
  | (k, v) :: rest, h => by
      simp only [plainEntries, Bool.and_eq_true, Bool.not_eq_true'] at h
      obtain ⟨⟨⟨hpk, hnd⟩, hpv⟩, hpr⟩ := h
      obtain ⟨hr1, hr2⟩ := plain_stripBadEntries n rest hpr
      by_cases hk : keyKept k n
      · obtain ⟨hv1, hv2⟩ := plain_stripBadVal n v hpv
        have hnd2 : ((stripBadEntries n rest).map Prod.fst).contains k = false := by
          cases hb : ((stripBadEntries n rest).map Prod.fst).contains k
          · rfl
          · rw [stripBad_keys_sub hb] at hnd
            exact absurd hnd (by simp)
        rw [stripBadEntries, if_pos hk]
        constructor
        · simp only [plainEntries, Bool.and_eq_true, Bool.not_eq_true']
          exact ⟨⟨⟨hpk, hnd2⟩, hv1⟩, hr1⟩
        · simp only [allKeptEntries, Bool.and_eq_true]
          exact ⟨⟨hk, hv2⟩, hr2⟩
      · rw [stripBadEntries, if_neg hk]
        exact ⟨hr1, hr2⟩

end

mutual

lemma stripBad_id_val (n : Nat) : ∀ v : JVal, allKeptVal n v = true →
    stripBadVal n v = v
  | JVal.null, _ => rfl
  | JVal.undef, _ => rfl
  | JVal.bool _, _ => rfl
  | JVal.num _, _ => rfl
  | JVal.str _, _ => rfl
  | JVal.arr _, _ => rfl
  | JVal.obj kvs, h => by
      have hh := stripBad_id_entries n kvs (by simpa [allKeptVal] using h)
      simp [stripBadVal, hh]

lemma stripBad_id_entries (n : Nat) : ∀ kvs : List (String × JVal),
    allKeptEntries n kvs = true → stripBadEntries n kvs = kvs
  | [], _ => rfl
  | (k, v) :: rest, h => by
      simp only [allKeptEntries, Bool.and_eq_true] at h
      obtain ⟨⟨hk, hv⟩, hr⟩ := h
      simp [stripBadEntries, hk, stripBad_id_val n v hv, stripBad_id_entries n rest hr]

end

lemma contains_append_false {l1 l2 : List String} {k : String}
    (h1 : l1.contains k = false) (h2 : l2.contains k = false) :
    (l1 ++ l2).contains k = false := by
  induction l1 with
  | nil => simpa using h2
  | cons a as ih =>
      rw [List.contains_cons] at h1
      have ha : (k == a) = false := by
        cases hb : k == a
        · rfl
        · rw [hb] at h1
          simp at h1
      have has : as.contains k = false := by
        cases hb : as.contains k
        · rfl
        · rw [hb] at h1
          simp at h1
      rw [List.cons_append, List.contains_cons, ha, ih has]
      rfl

lemma contains_false_ne {l : List String} {k : String} :
    l.contains k = false → ∀ x ∈ l, ¬ x = k := by
  induction l with
  | nil =>
      intro _ x hx
      simp at hx
  | cons a as ih =>
      intro h x hx he
      subst he
      rw [List.contains_cons] at h
      rcases List.mem_cons.mp hx with h1 | h1
      · subst h1
        simp at h
      · have h2 : as.contains x = false := by
          cases hb : as.contains x
          · rfl
          · rw [hb] at h
            simp at h
        exact (ih h2 x h1) rfl

mutual

lemma expand_plain_val (n : Nat) : ∀ v : JVal, plainVal v = true →
    expandValue n v = stripBadVal n v
  | JVal.null, _ => rfl
  | JVal.undef, _ => rfl
  | JVal.bool _, _ => rfl
  | JVal.num _, _ => rfl
  | JVal.str _, _ => rfl
  | JVal.arr _, h => by simp [plainVal] at h
  | JVal.obj kvs, h => by
      have hh := expand_plain_entries n kvs (by simpa [plainVal] using h) [] (by simp)
      simpa [expandValue, stripBadVal] using hh

lemma expand_plain_entries (n : Nat) : ∀ kvs : List (String × JVal),
    plainEntries kvs = true → ∀ out : List (String × JVal),
    (∀ p ∈ kvs, (out.map Prod.fst).contains p.1 = false) →
    expandEntries n kvs out = out ++ stripBadEntries n kvs
  | [], _, out, _ => by simp [expandEntries, stripBadEntries]
  | (k, v) :: rest, h, out, hout => by
      simp only [plainEntries, Bool.and_eq_true, Bool.not_eq_true'] at h
      obtain ⟨⟨⟨hpk, hnd⟩, hpv⟩, hpr⟩ := h
      by_cases hk : keyKept k n
      · have hpk2 := hpk
        simp only [plainKey, Bool.and_eq_true, Bool.not_eq_true'] at hpk2
        obtain ⟨hd, hb⟩ := hpk2
        have hcond : ((strContains k '.' || strContains k '[')
            && !(parsePathSegments k).isEmpty) = false := by
          rw [hd, hb]
          rfl
        have hko : (out.map Prod.fst).contains k = false := hout (k, v) (by simp)
        have hout2 : ∀ p ∈ rest,
            ((out ++ [(k, expandValue n v)]).map Prod.fst).contains p.1 = false := by
          intro p hp2
          rw [List.map_append]
          refine contains_append_false (hout p (by simp [hp2])) ?_
          have hne : ¬ p.1 = k :=
            contains_false_ne hnd p.1 (List.mem_map_of_mem Prod.fst hp2)
          simp [hne]
        simp only [expandEntries, hk, if_true, hcond, Bool.false_eq_true, if_false]
        rw [setKey_append (expandValue n v) hko]
        rw [expand_plain_entries n rest hpr _ hout2]
        rw [expand_plain_val n v hpv]
        simp [stripBadEntries, hk, List.append_assoc]
      · have hk2 : keyKept k n = false := by simpa using hk
        simp only [expandEntries, hk2, Bool.false_eq_true, if_false]
        rw [expand_plain_entries n rest hpr out (fun p hp2 => hout p (by simp [hp2]))]
        simp [stripBadEntries, hk2]

end

mutual

lemma clone_plain_val (n m : Nat) : ∀ v : JVal, plainVal v = true →
    allKeptVal n v = true → safeDeepClone n m v = v
  | JVal.null, _, _ => rfl
  | JVal.undef, _, _ => rfl
  | JVal.bool _, _, _ => rfl
  | JVal.num _, _, _ => rfl
  | JVal.str _, _, _ => rfl
  | JVal.arr _, h, _ => by simp [plainVal] at h
  | JVal.obj kvs, h, h2 => by
      have hh := clone_plain_entries n m kvs (by simpa [plainVal] using h)
        (by simpa [allKeptVal] using h2) [] (by simp)
      simpa [safeDeepClone] using hh

lemma clone_plain_entries (n m : Nat) : ∀ kvs : List (String × JVal),
    plainEntries kvs = true → allKeptEntries n kvs = true →
    ∀ out : List (String × JVal),
    (∀ p ∈ kvs, (out.map Prod.fst).contains p.1 = false) →
    cloneEntries n m kvs out = out ++ kvs
  | [], _, _, out, _ => by simp [cloneEntries]
  | (k, v) :: rest, h, h2, out, hout => by
      simp only [plainEntries, Bool.and_eq_true, Bool.not_eq_true'] at h
      obtain ⟨⟨⟨hpk, hnd⟩, hpv⟩, hpr⟩ := h
      simp only [allKeptEntries, Bool.and_eq_true] at h2
      obtain ⟨⟨hk, hkv⟩, hkr⟩ := h2
      have hko : (out.map Prod.fst).contains k = false := hout (k, v) (by simp)
      have hout2 : ∀ p ∈ rest,
          ((out ++ [(k, v)]).map Prod.fst).contains p.1 = false := by
        intro p hp2
        rw [List.map_append]
        refine contains_append_false (hout p (by simp [hp2])) ?_
        have hne : ¬ p.1 = k :=
          contains_false_ne hnd p.1 (List.mem_map_of_mem Prod.fst hp2)
        simp [hne]
      simp only [cloneEntries, hk, if_true]
      rw [clone_plain_val n m v hpv hkv, setKey_append v hko]
      rw [clone_plain_entries n m rest hpr hkr _ hout2]
      simp [List.append_assoc]

end

lemma trimValue_id (v : JVal) : trimValue defaultOptions.trimValues v = v := by
  cases v <;> rfl

mutual

lemma process_plain_val : ∀ v : JVal, plainVal v = true →
    allKeptVal defaultOptions.maxKeyLength v = true →
    ∀ (path : List String) (depth : Nat) (st : SanState) (v' : JVal) (st' : SanState),
    processNode defaultOptions v path depth st = Except.ok (v', st') →
    v' = v ∧ st'.polluted = st.polluted ∧ st'.pollutedKeys = st.pollutedKeys
  | JVal.null, _, _, path, depth, st, v', st', h => by
      have hr : processNode defaultOptions JVal.null path depth st
          = Except.ok (JVal.null, st) := rfl
      rw [hr] at h
      simp only [Except.ok.injEq, Prod.mk.injEq] at h
      obtain ⟨h1, h2⟩ := h
      subst h1
      subst h2
      exact ⟨rfl, rfl, rfl⟩
  | JVal.undef, _, _, path, depth, st, v', st', h => by
      have hr : processNode defaultOptions JVal.undef path depth st
          = Except.ok (JVal.undef, st) := rfl
      rw [hr] at h
      simp only [Except.ok.injEq, Prod.mk.injEq] at h
      obtain ⟨h1, h2⟩ := h
      subst h1
      subst h2
      exact ⟨rfl, rfl, rfl⟩
  | JVal.bool b, _, _, path, depth, st, v', st', h => by
      have hr : processNode defaultOptions (JVal.bool b) path depth st
          = Except.ok (JVal.bool b, st) := rfl
      rw [hr] at h
      simp only [Except.ok.injEq, Prod.mk.injEq] at h
      obtain ⟨h1, h2⟩ := h
      subst h1
      subst h2
      exact ⟨rfl, rfl, rfl⟩
  | JVal.num c, _, _, path, depth, st, v', st', h => by
      have hr : processNode defaultOptions (JVal.num c) path depth st
          = Except.ok (JVal.num c, st) := rfl
      rw [hr] at h
      simp only [Except.ok.injEq, Prod.mk.injEq] at h
      obtain ⟨h1, h2⟩ := h
      subst h1
      subst h2
      exact ⟨rfl, rfl, rfl⟩
  | JVal.str s, _, _, path, depth, st, v', st', h => by
      have hr : processNode defaultOptions (JVal.str s) path depth st
          = Except.ok (JVal.str s, st) := rfl
      rw [hr] at h
      simp only [Except.ok.injEq, Prod.mk.injEq] at h
      obtain ⟨h1, h2⟩ := h
      subst h1
      subst h2
      exact ⟨rfl, rfl, rfl⟩
  | JVal.arr xs, hp, _, path, depth, st, v', st', h => by
      simp [plainVal] at hp
  | JVal.obj kvs, hp, hk, path, depth, st, v', st', h => by
      simp only [processNode] at h
      by_cases hd : depth > defaultOptions.maxDepth
      · rw [if_pos hd] at h
        exact absurd h (by simp)
      · rw [if_neg hd] at h
        cases he : processEntries defaultOptions kvs path depth st [] with
        | error e =>
            rw [he] at h
            exact absurd h (by simp)
        | ok pr =>
            obtain ⟨out1, st1⟩ := pr
            rw [he] at h
            simp only [Except.ok.injEq, Prod.mk.injEq] at h
            obtain ⟨h1, h2⟩ := h
            subst h1
            subst h2
            have hents := process_plain_entries kvs (by simpa [plainVal] using hp)
              (by simpa [allKeptVal] using hk) path depth st []
              (by simp) out1 st1 he
            obtain ⟨e1, e2, e3⟩ := hents
            rw [e1]
            exact ⟨by simp, e2, e3⟩

lemma process_plain_entries : ∀ kvs : List (String × JVal), plainEntries kvs = true →
    allKeptEntries defaultOptions.maxKeyLength kvs = true →
    ∀ (path : List String) (depth : Nat) (st : SanState) (out : List (String × JVal)),
    (∀ p ∈ kvs, (out.map Prod.fst).contains p.1 = false) →
    ∀ (out' : List (String × JVal)) (st' : SanState),
    processEntries defaultOptions kvs path depth st out = Except.ok (out', st') →
    out' = out ++ kvs ∧ st'.polluted = st.polluted ∧ st'.pollutedKeys = st.pollutedKeys
  | [], _, _, path, depth, st, out, _, out', st', h => by
      have hr : processEntries defaultOptions [] path depth st out
          = Except.ok (out, st) := rfl
      rw [hr] at h
      simp only [Except.ok.injEq, Prod.mk.injEq] at h
      obtain ⟨h1, h2⟩ := h
      subst h1
      subst h2
      exact ⟨by simp, rfl, rfl⟩
  | (k, v) :: rest, hp, hk, path, depth, st, out, hout, out', st', h => by
      simp only [plainEntries, Bool.and_eq_true, Bool.not_eq_true'] at hp
      obtain ⟨⟨⟨hpk, hnd⟩, hpv⟩, hpr⟩ := hp
      simp only [allKeptEntries, Bool.and_eq_true] at hk
      obtain ⟨⟨hkk, hkv⟩, hkr⟩ := hk
      simp only [processEntries] at h
      by_cases hg : st.keyCount + 1 > defaultOptions.maxKeys
      · rw [if_pos hg] at h
        exact absurd h (by simp)
      · rw [if_neg hg, if_pos hkk] at h
        cases hn : processNode defaultOptions v (path ++ [k]) (depth + 1)
            { keyCount := st.keyCount + 1, polluted := st.polluted
              pollutedKeys := st.pollutedKeys } with
        | error e =>
            rw [hn] at h
            exact absurd h (by simp)
        | ok pr =>
            obtain ⟨value, st2⟩ := pr
            simp only [hn] at h
            obtain ⟨hv1, hv2, hv3⟩ :=
              process_plain_val v hpv hkv _ _ _ _ _ hn
            subst hv1
            have hko : (out.map Prod.fst).contains k = false := hout (k, value) (by simp)
            rw [trimValue_id value, setKey_append value hko] at h
            have hout2 : ∀ p ∈ rest,
                ((out ++ [(k, value)]).map Prod.fst).contains p.1 = false := by
              intro p hp2
              rw [List.map_append]
              refine contains_append_false (hout p (by simp [hp2])) ?_
              have hne : ¬ p.1 = k :=
                contains_false_ne hnd p.1 (List.mem_map_of_mem Prod.fst hp2)
              simp [hne]
            obtain ⟨e1, e2, e3⟩ :=
              process_plain_entries rest hpr hkr path depth st2 _ hout2 out' st' h
            refine ⟨?_, ?_, ?_⟩
            · rw [e1]
              simp [List.append_assoc]
            · rw [e2, hv2]
            · rw [e3, hv3]

end

/-- C8 (amended): the claimed idempotence and "input modulo malformed-key
removal" identity hold only for duplicate-free inputs whose keys carry no
path syntax (`'.'`/`'['`) and whose values contain no arrays: there
`sanitize` returns the input with every guard-rejected key removed, and
running `sanitize` again on that result returns it unchanged.  (On general
duplicate-free inputs the claim fails: a dotted key is not malformed, yet
path expansion restructures it, and arrays are reduced.) -/
theorem C8_plain_idempotence (x : List (String × JVal))
    (hx : plainEntries x = true) (y : JVal)
    (hok : sanitize x defaultOptions = Except.ok y) :
    y = JVal.obj (stripBadEntries defaultOptions.maxKeyLength x)
    ∧ sanitize (stripBadEntries defaultOptions.maxKeyLength x) defaultOptions
        = Except.ok y := by
  obtain ⟨hzp, hzk⟩ := plain_stripBadEntries defaultOptions.maxKeyLength x hx
  have hz1 : expandObjectPaths defaultOptions.maxKeyLength x
      = stripBadEntries defaultOptions.maxKeyLength x := by
    have hh := expand_plain_entries defaultOptions.maxKeyLength x hx [] (by simp)
    simpa [expandObjectPaths] using hh
  have hclone : safeDeepClone defaultOptions.maxKeyLength defaultOptions.maxArrayLength
      (JVal.obj (stripBadEntries defaultOptions.maxKeyLength x))
      = JVal.obj (stripBadEntries defaultOptions.maxKeyLength x) :=
    clone_plain_val defaultOptions.maxKeyLength defaultOptions.maxArrayLength
      (JVal.obj (stripBadEntries defaultOptions.maxKeyLength x))
      (by simpa [plainVal] using hzp) (by simpa [allKeptVal] using hzk)
  simp only [sanitize, sanitizePipeline, detectAndReduce] at hok
  rw [hz1, hclone] at hok
  cases hp : processNode defaultOptions
      (JVal.obj (stripBadEntries defaultOptions.maxKeyLength x)) [] 0
      { keyCount := 0, polluted := [], pollutedKeys := [] } with
  | error e =>
      rw [hp] at hok
      exact absurd hok (by simp)
  | ok pr =>
      obtain ⟨cleaned, st⟩ := pr
      simp only [hp] at hok
      obtain ⟨f1, f2, f3⟩ := process_plain_val
        (JVal.obj (stripBadEntries defaultOptions.maxKeyLength x))
        (by simpa [plainVal] using hzp) (by simpa [allKeptVal] using hzk)
        [] 0 _ _ _ hp
      rw [f2] at hok
      simp only [moveWhitelistedFromPolluted, mwWalk, applyRestores, List.foldl_nil,
        Except.ok.injEq] at hok
      subst hok
      refine ⟨f1, ?_⟩
      have hz2 : expandObjectPaths defaultOptions.maxKeyLength
          (stripBadEntries defaultOptions.maxKeyLength x)
          = stripBadEntries defaultOptions.maxKeyLength x := by
        have hh := expand_plain_entries defaultOptions.maxKeyLength
          (stripBadEntries defaultOptions.maxKeyLength x) hzp [] (by simp)
        rw [stripBad_id_entries defaultOptions.maxKeyLength _ hzk] at hh
        simpa [expandObjectPaths] using hh
      simp only [sanitize, sanitizePipeline, detectAndReduce]
      rw [hz2, hclone]
      simp only [hp, f2]
      simp [moveWhitelistedFromPolluted, mwWalk, applyRestores]

/-- Witness for C8 on a plain input with one malformed (punctuation-only)
key. -/
theorem C8_witness :
    plainEntries [("a", JVal.num 1), ("]]]", JVal.str "p"),
        ("b", JVal.obj [("c", JVal.bool true)])] = true ∧
    sanitize [("a", JVal.num 1), ("]]]", JVal.str "p"),
        ("b", JVal.obj [("c", JVal.bool true)])] defaultOptions
      = Except.ok (JVal.obj [("a", JVal.num 1),
          ("b", JVal.obj [("c", JVal.bool true)])]) ∧
    JVal.obj [("a", JVal.num 1), ("b", JVal.obj [("c", JVal.bool true)])]
      = JVal.obj (stripBadEntries defaultOptions.maxKeyLength
          [("a", JVal.num 1), ("]]]", JVal.str "p"),
           ("b", JVal.obj [("c", JVal.bool true)])]) ∧
    sanitize (stripBadEntries defaultOptions.maxKeyLength
        [("a", JVal.num 1), ("]]]", JVal.str "p"),
         ("b", JVal.obj [("c", JVal.bool true)])]) defaultOptions
      = Except.ok (JVal.obj [("a", JVal.num 1),
          ("b", JVal.obj [("c", JVal.bool true)])]) := by
  have h := C8_plain_idempotence
    [("a", JVal.num 1), ("]]]", JVal.str "p"), ("b", JVal.obj [("c", JVal.bool true)])]
    rfl
    (JVal.obj [("a", JVal.num 1), ("b", JVal.obj [("c", JVal.bool true)])])
    rfl
  exact ⟨rfl, rfl, h.1, h.2⟩
